import Mathlib

/-
A verification development for the filesapi storage-abstraction library.

The Go sources are shallowly embedded: pure fragments become Lean functions,
machine integers (Go int/int32/int64) become Int or Nat (sizes and counters
that the source keeps non-negative are Nat; values that the source computes
with possibly-negative intermediate results are Int), byte slices become
List Nat, strings become String or List Char, and calls into external services
(the operating system, the S3 API, the HMAC routine of the Go standard
library) become explicit parameters or small oracle structures describing the
observable behaviour of the external call.
-/

namespace FilesApi

instance {ε α : Type} [DecidableEq ε] [DecidableEq α] : DecidableEq (Except ε α) :=
  fun a b =>
    match a, b with
    | .ok x, .ok y => if h : x = y then isTrue (by rw [h]) else isFalse (by simp [h])
    | .error x, .error y => if h : x = y then isTrue (by rw [h]) else isFalse (by simp [h])
    | .ok _, .error _ => isFalse (by simp)
    | .error _, .ok _ => isFalse (by simp)

/-! ## Remote copy chunking (s3store.go)

Constants and helpers of the chunked multipart server-side copy:
`max_copy_chunk_size`, `max_put_object_copy_size`, `buildCopySourceRange`
and the part loop of `copyPartsTo`.
-/

def max_copy_chunk_size : Int := 5 * 1024 * 1024

def max_put_object_copy_size : Int := 5000 * 1024 * 1024

/-- The end offset computed by `buildCopySourceRange` in s3store.go:
`end := start + max_copy_chunk_size - 1; if end > objectSize { end = objectSize - 1 }`. -/
def copySourceRangeEnd (start objectSize : Int) : Int :=
  if start + max_copy_chunk_size - 1 > objectSize then objectSize - 1
  else start + max_copy_chunk_size - 1

/-- `buildCopySourceRange` of s3store.go: the `bytes=start-end` source-range string. -/
def buildCopySourceRange (start objectSize : Int) : String :=
  "bytes=" ++ toString start ++ "-" ++ toString (copySourceRangeEnd start objectSize)

/-- The start offsets visited by the part loop of `copyPartsTo`:
`for i = 0; i < fileSize; i += max_copy_chunk_size`. -/
def copyPartStarts (i fileSize : Int) : List Int :=
  if i < fileSize then i :: copyPartStarts (i + max_copy_chunk_size) fileSize else []
termination_by (fileSize - i).toNat
decreasing_by simp only [max_copy_chunk_size] at *; omega

/-- The end offset of the source range of the last part-copy request issued by
the copy loop for an object of size `fileSize`. -/
def lastCopyRangeEnd (fileSize : Int) : Option Int :=
  (copyPartStarts 0 fileSize).getLast?.map (fun st => copySourceRangeEnd st fileSize)

/-- Go `strings.Trim(s, "\"")` as used on the part ETag in `copyPartsTo`. -/
def trimQuotes (s : String) : String :=
  ⟨((s.data.dropWhile (· = '"')).reverse.dropWhile (· = '"')).reverse⟩

/-- Oracle describing the observable behaviour of the S3 client calls made by
`CopyObject`/`copyPartsTo` (the aws-sdk client is external to the repository). -/
structure S3CopyClient where
  createUploadId : Except String (Option String)
  uploadPartCopy : Int → String → Except String String
  completeUpload : List (Int × String) → Except String String
  serverSideCopy : Except String Unit

/-- The part loop of `copyPartsTo` (s3store.go): one `UploadPartCopy` per chunk
start; on a part failure the multipart session is aborted (the Bool component
records that the abort was attempted; its own error is ignored) and the loop
returns the part error.  On success the loop completes the multipart upload
with the accumulated part list. -/
def copyPartsLoop (client : S3CopyClient) (fileSize : Int)
    (parts : List (Int × String)) (partNumber : Int) :
    List Int → Except String Unit × Bool × List (Int × String)
  | [] =>
    match client.completeUpload parts with
    | .error _ => (.error "Error completing upload", false, parts)
    | .ok _ => (.ok (), false, parts)
  | st :: rest =>
    match client.uploadPartCopy partNumber (buildCopySourceRange st fileSize) with
    | .error _ => (.error ("Error uploading part " ++ toString partNumber), true, parts)
    | .ok etag =>
        copyPartsLoop client fileSize (parts ++ [(partNumber, trimQuotes etag)])
          (partNumber + 1) rest

/-- `copyPartsTo` of s3store.go.  Result: the returned error, whether an abort
was attempted, and the completed-part list. -/
def copyPartsTo (client : S3CopyClient) (fileSize : Int) :
    Except String Unit × Bool × List (Int × String) :=
  match client.createUploadId with
  | .error e => (.error e, false, [])
  | .ok idOpt =>
    if idOpt.getD "" = "" then
      (.error "No upload id found in start upload request", false, [])
    else copyPartsLoop client fileSize [] 1 (copyPartStarts 0 fileSize)

/-- `S3FS.CopyObject` of s3store.go, given the result of the `GetObjectInfo`
probe (size of the source or an error).  Note that in the large-object branch
the source discards the return value of `copyPartsTo`
(`s3fs.copyPartsTo(coi.Src, coi.Dest, fileSize)` on its own line) and returns
the `err` variable, which still holds the nil error of the info probe. -/
def S3FS.CopyObject (client : S3CopyClient) (infoResult : Except String Int) :
    Except String Unit :=
  match infoResult with
  | .error e => .error e
  | .ok fileSize =>
    if fileSize < max_put_object_copy_size then client.serverSideCopy
    else
      let _ := copyPartsTo client fileSize
      .ok ()

/-! ## Recursive delete batching (s3store.go)

`deleteListImpl` expands a directory-like path via `Walk`; the visitor appends
each descendant key to `delBuffer` and calls `flushDeletes` whenever the buffer
has reached `maxDelBufferSize` entries; after the walk the buffer is flushed
once more.  The source never clears `delBuffer` after a flush.
-/

def maxDelBufferSize : Nat := 1000

/-- The visitor loop of `deleteListImpl` over the descendant keys of one
directory-like path.  Returns the final buffer and the list of bulk-delete
requests issued (each request carries the whole buffer at flush time). -/
def delWalkLoop (delBuffer : List String) (requests : List (List String)) :
    List String → List String × List (List String)
  | [] => (delBuffer, requests)
  | key :: rest =>
    let b := delBuffer ++ [key]
    let r := if maxDelBufferSize ≤ b.length then requests ++ [b] else requests
    delWalkLoop b r rest

/-- The bulk-delete requests issued by `deleteListImpl` for a single path that
expands to the given descendant keys: the walk loop followed by the final
`flushDeletes` (which issues nothing for an empty buffer). -/
def deleteDirRequests (keys : List String) : List (List String) :=
  let (b, reqs) := delWalkLoop [] [] keys
  if b.isEmpty then reqs else reqs ++ [b]

/-- The concrete failing input for the batching claim: a prefix with exactly
`maxDelBufferSize` descendant keys. -/
def delKeys1000 : List String := (List.range maxDelBufferSize).map (fun n => toString n)

/-! ## Local backend writes (blockfs source file)

Files are byte lists.  `writeAt` is the semantics of `os.File.WriteAt`:
positioned write, zero-filling any gap beyond the current end of file and
preserving any bytes after the written region.
-/

def writeAt (file : List Nat) (off : Nat) (data : List Nat) : List Nat :=
  file.take off ++ List.replicate (off - file.length) 0 ++ data ++
    file.drop (off + data.length)

/-- `BlockFS.InitializeObjectUpload`: `os.Create` truncates the destination. -/
def BlockFS.InitializeObjectUpload : List Nat := []

/-- `BlockFS.WriteChunk`: positioned write of the chunk data at offset
`chunkId * b.Config.ChunkSize`. -/
def BlockFS.WriteChunk (chunkSize : Nat) (file : List Nat) (chunkId : Nat)
    (data : List Nat) : List Nat :=
  writeAt file (chunkId * chunkSize) data

/-- `BlockFS.CompleteObjectUpload` is a no-op on the local backend. -/
def BlockFS.CompleteObjectUpload (file : List Nat) : List Nat := file

/-- A full local multipart upload: initialize, write the given
(chunk index, data) list in order, complete. -/
def blockMultipartUpload (chunkSize : Nat) (chunks : List (Nat × List Nat)) : List Nat :=
  BlockFS.CompleteObjectUpload
    (chunks.foldl (fun f c => BlockFS.WriteChunk chunkSize f c.1 c.2)
      BlockFS.InitializeObjectUpload)

/-- `ObjectSource` of filestore.go.  `reader` and `data` carry the bytes the
reader/slice would provide; `filepath` models a non-empty `Filepath.Path`
together with the contents of that (readable) source file. -/
structure ObjectSource where
  reader : Option (List Nat)
  data : Option (List Nat)
  filepath : Option (List Nat)
  deriving DecidableEq

/-- The bytes hashed by `getFileMd5` (filestore.go): `io.Copy(h, f)` reads from
the CURRENT offset of the open file to the end; the function never seeks. -/
def getFileMd5Bytes (file : List Nat) (pos : Nat) : List Nat := file.drop pos

/-- The outcome of `BlockFS.PutObject`.  `ok` carries the bytes fed to the MD5
hash (the ETag is the hex MD5 of exactly these bytes) and the destination file
contents after the call. -/
inductive PutOutcome where
  | ok (hashedBytes : List Nat) (destFile : List Nat)
  | mkdirOnly
  | panicNilReader (destFile : List Nat)
  deriving DecidableEq

/-- The write path of `BlockFS.PutObject`: open destination with
`O_RDWR|O_CREATE` (no truncation), `io.Copy` the source in from offset 0, then
`getFileMd5(f)` on the still-open handle, whose offset now sits at the end of
the written data. -/
def writeAndHash (dest d : List Nat) : PutOutcome :=
  let f := writeAt dest 0 d
  .ok (getFileMd5Bytes f d.length) f

/-- `BlockFS.PutObject`: the source switch of the blockfs source file, in
source order (explicitly-empty data slice, data slice, file path, reader).
When no case matches, `src` stays nil and `io.Copy(f, nil)` panics after the
destination has already been opened/created. -/
def BlockFS.PutObject (dest : List Nat) (src : ObjectSource) : PutOutcome :=
  match src.data with
  | some d => if d.isEmpty then .mkdirOnly else writeAndHash dest d
  | none =>
    match src.filepath with
    | some contents => writeAndHash dest contents
    | none =>
      match src.reader with
      | some contents => writeAndHash dest contents
      | none => .panicNilReader dest

/-- `ObjectSource.GetReader` of filestore.go (source order: reader, file path,
data slice; otherwise the invalid-configuration error). -/
def ObjectSource.GetReader (src : ObjectSource) : Except String (List Nat) :=
  match src.reader with
  | some r => .ok r
  | none =>
    match src.filepath with
    | some contents => .ok contents
    | none =>
      match src.data with
      | some d => .ok d
      | none => .error "invalid objectsource configuration"

/-- `S3FS.PutObject` of s3store.go reduced to its error structure: it fails
exactly when `GetReader` fails (wrapping the message); otherwise it uploads
and returns the backend ETag (an oracle parameter here). -/
def S3FS.PutObject (src : ObjectSource) (etag : String) : Except String String :=
  match src.GetReader with
  | .error e => .error ("Unable to get the Source Reader: " ++ e)
  | .ok _ => .ok etag

def emptySource : ObjectSource := ⟨none, none, none⟩

/-! ## GetObjectInfo error mapping (both backends) -/

inductive FsErr where
  | fileNotFound (path : String)
  | generic (msg : String)
  deriving DecidableEq

/-- Result of the external `os.Stat` call: metadata, a `*fs.PathError`
(which is what `os.Stat` returns for a non-existent path), or any other
error value. -/
inductive BlockStatResult where
  | found (isDir : Bool) (size : Nat)
  | pathError (msg : String)
  | otherError (msg : String)
  deriving DecidableEq

/-- `BlockFS.GetObjectInfo`: `errors.As(err, &pathError)` rewrites a
`*fs.PathError` into `FileNotFoundError{path.Path}`; other errors pass
through unchanged. -/
def BlockFS.GetObjectInfo (path : String) (stat : BlockStatResult) :
    Except FsErr (Bool × Nat) :=
  match stat with
  | .found d s => .ok (d, s)
  | .pathError _ => .error (.fileNotFound path)
  | .otherError m => .error (.generic m)

/-- Result of the external `GetObjectAttributes` call: attributes, the
`types.NoSuchKey` error (which is what S3 returns for a non-existent key),
or any other error value. -/
inductive S3AttrResult where
  | attrs (size : Int)
  | noSuchKey
  | otherError (msg : String)
  deriving DecidableEq

/-- `S3FS.GetObjectInfo`: `errors.As(err, &noSuchKey)` rewrites the
`NoSuchKey` error into `FileNotFoundError{path.Path}`; other errors pass
through unchanged. -/
def S3FS.GetObjectInfo (path : String) (resp : S3AttrResult) :
    Except FsErr (Option Int) :=
  match resp with
  | .attrs size => .ok (some size)
  | .noSuchKey => .error (.fileNotFound path)
  | .otherError m => .error (.generic m)

/-! ## Retryer (utilities.go)

`Send` loops: call the operation; return on success or once
`attempts > MaxAttempts`; otherwise sleep (backoff with jitter, irrelevant to
the claims) and increment `attempts`.  The operation is modelled as a function
of the invocation index; the model also returns how many invocations were
performed.
-/

def Retryer.sendLoop {ε α : Type} (f : Nat → Except ε α) (maxAttempts : Int)
    (attempts : Nat) : Except ε α × Nat :=
  match f attempts with
  | .ok t => (.ok t, attempts + 1)
  | .error e =>
    if h : (attempts : Int) > maxAttempts then (.error e, attempts + 1)
    else Retryer.sendLoop f maxAttempts (attempts + 1)
termination_by (maxAttempts + 1 - (attempts : Int)).toNat
decreasing_by omega

def Retryer.Send {ε α : Type} (f : Nat → Except ε α) (maxAttempts : Int) :
    Except ε α × Nat :=
  Retryer.sendLoop f maxAttempts 0

/-! ## Local byte-range reads (blockfs source file, filestore.go) -/

/-- `Range` of filestore.go (`Unit`, `Start`, `End`; `End` is a reserved word
in Lean, so the field is called `stop`). -/
structure ByteRange where
  unit : List Char
  start : Int
  stop : Int
  deriving DecidableEq

/-- Decimal value of a digit run, as `strconv.ParseInt` computes it.
(ParseInt's int64 overflow error is not modelled; the claims only use small
values.) -/
def digitsToNat (ds : List Char) : Nat := ds.foldl (fun a c => 10 * a + (c.toNat - 48)) 0

/-- `parseRange` of filestore.go: the anchored regular expression
`^([a-zA-Z]+)=(\d+)-(\d+)$` rendered as maximal-munch spans (the character
classes are disjoint from the separators, so the greedy spans are exactly the
regex semantics). -/
def parseRange (input : List Char) : Except String ByteRange :=
  let (unitChars, r1) := input.span Char.isAlpha
  match r1 with
  | '=' :: r2 =>
    let (d1, r3) := r2.span Char.isDigit
    match r3 with
    | '-' :: r4 =>
      let (d2, r5) := r4.span Char.isDigit
      if unitChars.isEmpty || d1.isEmpty || d2.isEmpty || !r5.isEmpty then
        .error "invalid range input format"
      else .ok ⟨unitChars, (digitsToNat d1 : Int), (digitsToNat d2 : Int)⟩
    | _ => .error "invalid range input format"
  | _ => .error "invalid range input format"

/-- Semantics of `reader.ReadAt(buf, off)` with `buf` a fresh zero buffer of
length `n`: the available bytes at `off` fill the front, the rest stays zero
(the short-read error is discarded by the caller). -/
def readAtFill (file : List Nat) (off n : Nat) : List Nat :=
  (file.drop off).take n ++ List.replicate (n - (file.drop off).length) 0

/-- The outcome of `BlockFS.GetObject`: a stream over a buffer with a nil
error, an error return, or a runtime panic (`make([]byte, n)` with negative
`n` panics). -/
inductive GetObjOutcome where
  | stream (buf : List Nat)
  | failure (msg : String)
  | panicSlice
  deriving DecidableEq

/-- `BlockFS.GetObject` of the blockfs source file for an existing file: no
range returns the whole file; otherwise parse the range, allocate
`make([]byte, End-Start)` (panics when negative), `ReadAt` from `Start`
(error discarded) and return the buffer with a nil error. -/
def BlockFS.GetObject (file : List Nat) (rangeStr : List Char) : GetObjOutcome :=
  if rangeStr.isEmpty then .stream file
  else
    match parseRange rangeStr with
    | .error e => .failure e
    | .ok r =>
      if r.stop - r.start < 0 then .panicSlice
      else .stream (readAtFill file r.start.toNat (r.stop - r.start).toNat)

/-! ## Signing utility (utilities.go)

`PresignObject`/`VerifySignedObject` and their helpers.  Strings are byte
sequences modelled as `List Char` (a char with code point below 256 is one
byte; `AllBytes` states that a string is byte-valued, which covers every
URL/query the Go code can see since Go strings are byte strings).  The
pieces of the Go standard library that the code calls are modelled from
their documented behaviour: `url.Values` encoding/decoding
(`net/url`: `Values.Encode` sorts keys and percent-escapes, `ParseQuery`
splits on `&` and unescapes, `Values.Get` returns the first value, `Add`
appends, `Del` removes the key), `base64.StdEncoding` (padded, non-strict
decoding), `strconv.Itoa`/`Atoi`, and `time` formatting (modelled as the
decimal seconds count — an injective encode/decode pair of an absolute UTC
timestamp, which is all the verification logic uses).  The HMAC-SHA256 of
`crypto/hmac` is external and is a parameter `mac key data`; nothing is
assumed about it except where a theorem states a hypothesis (its output is
bytes; it is injective for a fixed key).  URLs are modelled as
`prefix ++ "?" ++ rawQuery` (fragments are not modelled).
-/

def hexUpperDigit (n : Nat) : Char :=
  if n < 10 then Char.ofNat (48 + n) else Char.ofNat (55 + n)

def hexVal (c : Char) : Option Nat :=
  if 48 ≤ c.toNat ∧ c.toNat ≤ 57 then some (c.toNat - 48)
  else if 97 ≤ c.toNat ∧ c.toNat ≤ 102 then some (c.toNat - 87)
  else if 65 ≤ c.toNat ∧ c.toNat ≤ 70 then some (c.toNat - 55)
  else none

/-- Go `url.shouldEscape(c, encodeQueryComponent) = false`: alphanumerics
and `-_.~` stay as they are. -/
def isUnreservedQueryChar (c : Char) : Bool :=
  (65 ≤ c.toNat ∧ c.toNat ≤ 90) ∨ (97 ≤ c.toNat ∧ c.toNat ≤ 122) ∨
    (48 ≤ c.toNat ∧ c.toNat ≤ 57) ∨ c.toNat = 45 ∨ c.toNat = 95 ∨
    c.toNat = 46 ∨ c.toNat = 126

/-- One character of `url.QueryEscape`: unreserved characters pass, space
becomes `+`, anything else becomes `%XX` (uppercase hex over the byte). -/
def escChar (c : Char) : List Char :=
  if isUnreservedQueryChar c then [c]
  else if c = ' ' then ['+']
  else ['%', hexUpperDigit (c.toNat / 16 % 16), hexUpperDigit (c.toNat % 16)]

def queryEscape (s : List Char) : List Char := (s.map escChar).flatten

/-- Go `url.QueryUnescape`: `%XX` decodes (failing on bad hex or a short
tail), `+` becomes space, everything else passes through. -/
def queryUnescape : List Char → Option (List Char)
  | [] => some []
  | c :: rest =>
    if c = '%' then
      match rest with
      | h :: l :: rest2 =>
        match hexVal h, hexVal l with
        | some hv, some lv =>
          (queryUnescape rest2).map (fun r => Char.ofNat (16 * hv + lv) :: r)
        | _, _ => none
      | _ => none
    else if c = '+' then (queryUnescape rest).map (fun r => ' ' :: r)
    else (queryUnescape rest).map (fun r => c :: r)

/-- The value of a base64 alphabet index (`A-Za-z0-9+/`). -/
def b64Char (n : Nat) : Char :=
  ("ABCDEFGHIJKLMNOPQRSTUVWXYZabcdefghijklmnopqrstuvwxyz0123456789+/".toList).getD n 'A'

def b64Val (c : Char) : Option Nat :=
  if 65 ≤ c.toNat ∧ c.toNat ≤ 90 then some (c.toNat - 65)
  else if 97 ≤ c.toNat ∧ c.toNat ≤ 122 then some (c.toNat - 71)
  else if 48 ≤ c.toNat ∧ c.toNat ≤ 57 then some (c.toNat + 4)
  else if c = '+' then some 62
  else if c = '/' then some 63
  else none

/-- `base64.StdEncoding.EncodeToString` over byte lists. -/
def b64encode : List Nat → List Char
  | [] => []
  | [a] => [b64Char (a / 4), b64Char (a % 4 * 16), '=', '=']
  | [a, b] => [b64Char (a / 4), b64Char (a % 4 * 16 + b / 16), b64Char (b % 16 * 4), '=']
  | a :: b :: c :: rest =>
    b64Char (a / 4) :: b64Char (a % 4 * 16 + b / 16) :: b64Char (b % 16 * 4 + c / 64) ::
      b64Char (c % 64) :: b64encode rest

/-- `base64.StdEncoding.DecodeString`: padded groups of four, `=` only in the
final group, non-strict about trailing bits (as Go's default decoder is). -/
def b64decode : List Char → Option (List Nat)
  | [] => some []
  | c1 :: c2 :: c3 :: c4 :: rest =>
    if rest.isEmpty ∧ c3 = '=' ∧ c4 = '=' then
      match b64Val c1, b64Val c2 with
      | some v1, some v2 => some [v1 * 4 + v2 / 16]
      | _, _ => none
    else if rest.isEmpty ∧ c4 = '=' then
      match b64Val c1, b64Val c2, b64Val c3 with
      | some v1, some v2, some v3 => some [v1 * 4 + v2 / 16, v2 % 16 * 16 + v3 / 4]
      | _, _, _ => none
    else
      match b64Val c1, b64Val c2, b64Val c3, b64Val c4 with
      | some v1, some v2, some v3, some v4 =>
        (b64decode rest).map
          (fun tl => (v1 * 4 + v2 / 16) :: (v2 % 16 * 16 + v3 / 4) :: (v3 % 4 * 64 + v4) :: tl)
      | _, _, _, _ => none
  | _ => none

def natDigitsRev (n : Nat) : List Nat :=
  if n = 0 then [] else n % 10 :: natDigitsRev (n / 10)
decreasing_by omega

def digitChar (d : Nat) : Char :=
  if d = 0 then '0' else if d = 1 then '1' else if d = 2 then '2'
  else if d = 3 then '3' else if d = 4 then '4' else if d = 5 then '5'
  else if d = 6 then '6' else if d = 7 then '7' else if d = 8 then '8' else '9'

def natToChars (n : Nat) : List Char :=
  if n = 0 then ['0'] else (natDigitsRev n).reverse.map digitChar

/-- `strconv.Itoa` over the model integers. -/
def intToChars (i : Int) : List Char :=
  if i < 0 then '-' :: natToChars (-i).toNat else natToChars i.toNat

def parseNatDigits (s : List Char) : Option Nat :=
  if s ≠ [] ∧ ∀ c ∈ s, 48 ≤ c.toNat ∧ c.toNat ≤ 57 then
    some (s.foldl (fun a c => 10 * a + (c.toNat - 48)) 0)
  else none

/-- `strconv.Atoi` (sign handling; no overflow modelled). -/
def parseIntChars (s : List Char) : Option Int :=
  match s with
  | [] => none
  | c :: rest =>
    if c = '-' then (parseNatDigits rest).map (fun (n : Nat) => -(n : Int))
    else if c = '+' then (parseNatDigits rest).map (fun (n : Nat) => (n : Int))
    else (parseNatDigits s).map (fun (n : Nat) => (n : Int))

/-- `url.Values` as the list of key-value pairs in order of appearance.
The map semantics of Go's `url.Values` (per-key value slices in insertion
order) is recovered through `valuesOf`. -/
abbrev QueryPairs : Type := List (List Char × List Char)

def valuesOf (k : List Char) (q : QueryPairs) : List (List Char) :=
  List.filterMap (fun p => if p.1 = k then some p.2 else none) q

/-- `Values.Get`: the first value of the key, empty if absent. -/
def getFirst (k : List Char) (q : QueryPairs) : List Char := (valuesOf k q).headD []

/-- `Values.Del`. -/
def delKey (k : List Char) (q : QueryPairs) : QueryPairs :=
  List.filter (fun p => ¬ p.1 = k) q

def lexLe : List Char → List Char → Bool
  | [], _ => true
  | _ :: _, [] => false
  | a :: as, b :: bs =>
    if a.toNat < b.toNat then true else if b.toNat < a.toNat then false else lexLe as bs

def insertSorted (x : List Char) : List (List Char) → List (List Char)
  | [] => [x]
  | y :: ys => if lexLe x y then x :: y :: ys else y :: insertSorted x ys

def sortStrings (l : List (List Char)) : List (List Char) := l.foldr insertSorted []

/-- The sorted key set over which `Values.Encode` iterates
(`sort.Strings(keys)` over the map's key set). -/
def queryKeys (q : QueryPairs) : List (List Char) :=
  sortStrings (List.dedup (List.map Prod.fst q))

def joinWith (sep : Char) : List (List Char) → List Char
  | [] => []
  | [a] => a
  | a :: rest => a ++ sep :: joinWith sep rest

/-- `Values.Encode`: for each key in sorted order, each of its values in
slice order as `escape(k)=escape(v)`, joined by `&`. -/
def encodeQuery (q : QueryPairs) : List Char :=
  joinWith '&'
    ((List.map (fun k => List.map (fun v => queryEscape k ++ '=' :: queryEscape v)
      (valuesOf k q)) (queryKeys q)).flatten)

/-- The canonical pair list corresponding to `encodeQuery`'s order. -/
def canonQuery (q : QueryPairs) : QueryPairs :=
  (List.map (fun k => List.map (fun v => (k, v)) (valuesOf k q)) (queryKeys q)).flatten

def splitOnChar (sep : Char) : List Char → List (List Char)
  | [] => [[]]
  | c :: rest =>
    let r := splitOnChar sep rest
    if c = sep then [] :: r
    else
      match r with
      | [] => [[c]]
      | a :: as => (c :: a) :: as

def cutAt (sep : Char) : List Char → List Char × List Char
  | [] => ([], [])
  | c :: rest =>
    if c = sep then ([], rest)
    else
      let (a, b) := cutAt sep rest
      (c :: a, b)

/-- One `key=value` component of `url.ParseQuery`: empty components and
components containing `;` are skipped, the component is cut at the first
`=`, both halves are unescaped (the pair is dropped if either fails). -/
def parseQueryComp (comp : List Char) : QueryPairs :=
  if comp.isEmpty then []
  else if comp.contains ';' then []
  else
    let (k0, v0) := cutAt '=' comp
    match queryUnescape k0, queryUnescape v0 with
    | some k, some v => [(k, v)]
    | _, _ => []

/-- `uri.Query()` = `url.ParseQuery` with the error ignored. -/
def parseQuery (s : List Char) : QueryPairs :=
  ((splitOnChar '&' s).map parseQueryComp).flatten

/-- `url.Parse` reduced to what the signing code uses: everything before the
first `?` (scheme, host, path) is an opaque prefix, the rest is `RawQuery`. -/
def splitUri (uri : List Char) : List Char × List Char := cutAt '?' uri

/-- `uri.String()`: the prefix, then `?` and the raw query when non-empty. -/
def uriString (base rawQuery : List Char) : List Char :=
  if rawQuery.isEmpty then base else base ++ '?' :: rawQuery

def signatureQueryName : List Char := "X-Amx-Signature".toList

def expirationQueryName : List Char := "X-Amx-Expiration".toList

def timeQueryName : List Char := "X-Amx-Date".toList

def maxExpiration : Int := 86400 * 30

/-- `PresignObject` of utilities.go, with the HMAC as the parameter `mac`
(key, data) and the clock as `now` (UTC seconds): reject expirations beyond
the ceiling; append the timestamp and the expiration as query parameters;
sign the resulting URL string; append the base64-then-query-escaped
signature; return the final URL. -/
def PresignObject (mac : List Char → List Char → List Nat) (now : Nat)
    (uri signingKey : List Char) (expiration : Int) : Option (List Char) :=
  if expiration > maxExpiration then none
  else
    let (base, rawQ) := splitUri uri
    let q0 := parseQuery rawQ
    let q1 := q0 ++ [(timeQueryName, natToChars now)] ++
      [(expirationQueryName, intToChars expiration)]
    let signedStr := uriString base (encodeQuery q1)
    let signature := mac signingKey signedStr
    let sUrl := queryEscape (b64encode signature)
    let q2 := q1 ++ [(signatureQueryName, sUrl)]
    some (uriString base (encodeQuery q2))

/-- `verifySignature` of utilities.go: extract and decode the signature
parameter, recompute the MAC over the URL with that parameter removed,
compare byte-for-byte; any decode failure is a verification failure. -/
def verifySignature (mac : List Char → List Char → List Nat) (base : List Char)
    (q : QueryPairs) (key : List Char) : Bool :=
  match queryUnescape (getFirst signatureQueryName q) with
  | none => false
  | some b64sig =>
    match b64decode b64sig with
    | none => false
    | some signature =>
      let expected := mac key (uriString base (encodeQuery (delKey signatureQueryName q)))
      decide (signature = expected)

/-- `verifyExpiration` of utilities.go: parse the timestamp and the
expiration, require `timestamp + expiration > now`; any parse failure is a
verification failure. -/
def verifyExpiration (now : Nat) (q : QueryPairs) : Bool :=
  match parseNatDigits (getFirst timeQueryName q) with
  | none => false
  | some t =>
    match parseIntChars (getFirst expirationQueryName q) with
    | none => false
    | some d => decide ((t : Int) + d > (now : Int))

/-- `VerifySignedObject` of utilities.go. -/
def VerifySignedObject (mac : List Char → List Char → List Nat) (now : Nat)
    (uri key : List Char) : Bool :=
  let (base, rawQ) := splitUri uri
  let q := parseQuery rawQ
  verifySignature mac base q key && verifyExpiration now q

/-- Replace the first value of key `k` by `v'` (altering one query
parameter of a signed URL). -/
def alterFirst (k v' : List Char) : QueryPairs → QueryPairs
  | [] => []
  | p :: rest => if p.1 = k then (k, v') :: rest else p :: alterFirst k v' rest

/-- The string is byte-valued (every char is a single byte). -/
def AllBytes (s : List Char) : Prop := ∀ c ∈ s, c.toNat < 256

/-- Every key and value of the query is byte-valued. -/
def WFQuery (q : QueryPairs) : Prop := ∀ p ∈ q, AllBytes p.1 ∧ AllBytes p.2

/-- A concrete MAC used to exhibit counterexamples: the identity on the
message bytes (the key is ignored; nothing in the counterexamples depends
on the MAC). -/
def macId (_key data : List Char) : List Nat := data.map Char.toNat

/-- A concrete injective byte-valued MAC used to instantiate the verified
round-trip: each character becomes its three base-256 digits. -/
def macW (_key data : List Char) : List Nat :=
  (data.map (fun c => [c.toNat % 256, c.toNat / 256 % 256, c.toNat / 65536])).flatten

/-- One `escape(k)=escape(v)` component of `Values.Encode`. -/
def rowPiece (p : List Char × List Char) : List Char :=
  queryEscape p.1 ++ '=' :: queryEscape p.2

/-- The query pairs after `PresignObject` adds the timestamp and the
expiration. -/
def presignQ1 (now : Nat) (exp : Int) (uri : List Char) : QueryPairs :=
  parseQuery (splitUri uri).2 ++ [(timeQueryName, natToChars now)] ++
    [(expirationQueryName, intToChars exp)]

/-- The URL string that `PresignObject` signs. -/
def presignStr (now : Nat) (exp : Int) (uri : List Char) : List Char :=
  uriString (splitUri uri).1 (encodeQuery (presignQ1 now exp uri))

/-- The full query pairs of the presigned URL, signature included. -/
def presignQ2 (mac : List Char → List Char → List Nat) (now : Nat) (exp : Int)
    (uri key : List Char) : QueryPairs :=
  presignQ1 now exp uri ++
    [(signatureQueryName, queryEscape (b64encode (mac key (presignStr now exp uri))))]

/-! ## Theorems -/

/-! ### C1: chunked copy part count and last range end -/

theorem copyPartStarts_length (i S : Int) :
    (copyPartStarts i S).length =
      ((S - i + max_copy_chunk_size - 1) / max_copy_chunk_size).toNat := by
  induction i, S using copyPartStarts.induct with
  | case1 i S h ih =>
    rw [copyPartStarts, if_pos h, List.length_cons, ih]
    simp only [max_copy_chunk_size] at *
    omega
  | case2 i S h =>
    rw [copyPartStarts, if_neg h, List.length_nil]
    simp only [max_copy_chunk_size] at *
    omega

theorem getLast?_cons_ne_nil {α : Type} {l : List α} (a : α) (h : l ≠ []) :
    (a :: l).getLast? = l.getLast? := by
  cases l with
  | nil => exact absurd rfl h
  | cons b bs => rw [List.getLast?_cons_cons]

theorem copyPartStarts_getLast (i S : Int) :
    i < S →
    (copyPartStarts i S).getLast? =
      some (i + max_copy_chunk_size * ((S - i - 1) / max_copy_chunk_size)) := by
  induction i, S using copyPartStarts.induct with
  | case1 i S h1 ih =>
    intro _
    rw [copyPartStarts, if_pos h1]
    by_cases h2 : i + max_copy_chunk_size < S
    · have hne : copyPartStarts (i + max_copy_chunk_size) S ≠ [] := by
        rw [copyPartStarts, if_pos h2]
        simp
      rw [getLast?_cons_ne_nil _ hne, ih h2]
      congr 1
      simp only [max_copy_chunk_size] at *
      omega
    · rw [copyPartStarts, if_neg h2]
      simp only [List.getLast?_singleton, Option.some.injEq]
      simp only [max_copy_chunk_size] at *
      omega
  | case2 i S h1 =>
    intro h
    exact absurd h h1

theorem lastCopyRangeEnd_eq (S : Int) (h : 0 < S) :
    lastCopyRangeEnd S =
      some (copySourceRangeEnd (max_copy_chunk_size * ((S - 1) / max_copy_chunk_size)) S) := by
  unfold lastCopyRangeEnd
  rw [copyPartStarts_getLast 0 S h]
  simp

/-- Claim C1 is false as stated: for a source of size `S = 5248122879`
(which is at least the large-object threshold `5000*1024*1024`), the last
part-copy request's range ends at `S`, not `S - 1`: `buildCopySourceRange`
caps the end offset only when it strictly exceeds `objectSize`, so an
uncapped end equal to `objectSize` slips through. -/
theorem C1_counterexample :
    lastCopyRangeEnd 5248122879 = some 5248122879 ∧
    max_put_object_copy_size ≤ (5248122879 : Int) ∧
    (5248122879 : Int) ≠ 5248122879 - 1 := by
  refine ⟨?_, by decide, by decide⟩
  rw [lastCopyRangeEnd_eq 5248122879 (by norm_num)]
  norm_num [copySourceRangeEnd, max_copy_chunk_size]

/-- Claim C1 (amended): for every chunked multipart copy with source size `S`
at or above the large-object threshold, the copy loop issues exactly
`ceil(S / max_copy_chunk_size)` part-copy requests, and the byte range of the
last request ends at `S - 1` except when `S % max_copy_chunk_size`
equals `max_copy_chunk_size - 1`, in which case it ends at `S` (the clipping
in `buildCopySourceRange` caps the end offset only when it strictly exceeds
`objectSize`). -/
theorem C1_copy_chunking (S : Int) (h : max_put_object_copy_size ≤ S) :
    (copyPartStarts 0 S).length =
      ((S + max_copy_chunk_size - 1) / max_copy_chunk_size).toNat ∧
    lastCopyRangeEnd S =
      some (if S % max_copy_chunk_size = max_copy_chunk_size - 1 then S else S - 1) := by
  constructor
  · rw [copyPartStarts_length]
    norm_num
  · rw [lastCopyRangeEnd_eq S (by simp only [max_put_object_copy_size] at h; omega)]
    congr 1
    unfold copySourceRangeEnd
    simp only [max_copy_chunk_size, max_put_object_copy_size] at *
    split_ifs <;> omega

/-- Witness for C1_copy_chunking at the concrete size `S = 5242880000`
(exactly the large-object threshold; 1000 parts; last range end 5242879999). -/
theorem C1_copy_chunking_witness :
    max_put_object_copy_size ≤ (5242880000 : Int) ∧
    ((copyPartStarts 0 5242880000).length =
        (((5242880000 : Int) + max_copy_chunk_size - 1) / max_copy_chunk_size).toNat ∧
      lastCopyRangeEnd 5242880000 =
        some (if (5242880000 : Int) % max_copy_chunk_size = max_copy_chunk_size - 1
          then 5242880000 else 5242880000 - 1)) :=
  ⟨by decide, C1_copy_chunking 5242880000 (by decide)⟩

/-! ### C3: recursive delete batching -/

theorem delWalkLoop_small (keys : List String) :
    ∀ (buf : List String) (reqs : List (List String)),
      buf.length + keys.length ≤ maxDelBufferSize →
      delWalkLoop buf reqs keys =
        (buf ++ keys,
         reqs ++ if buf.length + keys.length = maxDelBufferSize ∧ keys ≠ [] then
           [buf ++ keys] else []) := by
  induction keys with
  | nil =>
    intro buf reqs _
    simp [delWalkLoop]
  | cons k ks ih =>
    intro buf reqs h
    rw [delWalkLoop]
    simp only [List.length_cons] at h
    have hlen2 : (buf ++ [k]).length = buf.length + 1 := by simp
    by_cases hf : maxDelBufferSize ≤ buf.length + 1
    · have hks : ks = [] := List.length_eq_zero.mp (by omega)
      subst hks
      rw [if_pos (by rw [hlen2]; omega)]
      rw [delWalkLoop]
      rw [if_pos ⟨by simp only [List.length_cons, List.length_nil] at *; omega, by simp⟩]
    · rw [if_neg (by rw [hlen2]; omega)]
      rw [ih (buf ++ [k]) reqs (by rw [hlen2]; omega)]
      have he : buf ++ [k] ++ ks = buf ++ k :: ks := by simp
      rw [he]
      by_cases hcond : buf.length + (k :: ks).length = maxDelBufferSize ∧ k :: ks ≠ []
      · have hks : ks ≠ [] := by
          intro hk
          subst hk
          simp only [List.length_cons, List.length_nil] at hcond
          omega
        rw [if_pos ⟨by simp only [hlen2, List.length_cons] at *; omega, hks⟩,
          if_pos hcond]
      · rw [if_neg ?hn, if_neg hcond]
        case hn =>
          rintro ⟨h1, _⟩
          exact hcond ⟨by simp only [hlen2, List.length_cons] at *; omega, by simp⟩

/-- Claim C3 fails on the code (code bug): deleting a prefix with exactly
1000 descendant keys issues 2 bulk-delete requests, each carrying all 1000
keys (so every key is submitted twice), instead of the single
`ceil(1000/1000) = 1` batch the claim requires: `deleteListImpl` never clears
`delBuffer` after `flushDeletes`, so the in-loop flush at buffer length 1000
and the final flush both send the whole buffer. -/
theorem C3_delete_batching_bug :
    delKeys1000.length = 1000 ∧
    deleteDirRequests delKeys1000 = [delKeys1000, delKeys1000] ∧
    (deleteDirRequests delKeys1000).length ≠ 1 := by
  have hlen : delKeys1000.length = 1000 := by
    simp [delKeys1000, maxDelBufferSize]
  have hne : delKeys1000 ≠ [] := by
    intro hc
    rw [hc] at hlen
    exact absurd hlen (by decide)
  have h := delWalkLoop_small delKeys1000 [] []
    (by simp only [List.length_nil, Nat.zero_add, hlen, maxDelBufferSize]; omega)
  rw [if_pos ⟨by simp only [List.length_nil, Nat.zero_add, hlen, maxDelBufferSize],
    hne⟩] at h
  simp only [List.nil_append] at h
  have hreq : deleteDirRequests delKeys1000 = [delKeys1000, delKeys1000] := by
    unfold deleteDirRequests
    rw [h]
    simp only [List.isEmpty_iff]
    rw [if_neg hne]
    simp
  refine ⟨hlen, hreq, by rw [hreq]; decide⟩

/-! ### C4: chunked copy failure is swallowed by CopyObject -/

/-- A client whose part-copy calls always fail. -/
def failPartClient : S3CopyClient where
  createUploadId := .ok (some "uid")
  uploadPartCopy := fun _ _ => .error "boom"
  completeUpload := fun _ => .ok "etag"
  serverSideCopy := .ok ()

/-- Claim C4 fails on the code (code bug): for a source of size 5242880000
(at the large-object threshold, so the chunked multipart path runs) whose
first part-copy fails, `copyPartsTo` aborts the session (best effort) and
returns a non-nil error, but `CopyObject` discards the return value of
`copyPartsTo` and returns the nil error left over from the info probe — the
whole copy reports success. -/
theorem C4_copy_error_swallowed :
    (copyPartsTo failPartClient 5242880000).1 = .error "Error uploading part 1" ∧
    (copyPartsTo failPartClient 5242880000).2.1 = true ∧
    S3FS.CopyObject failPartClient (.ok 5242880000) = .ok () := by
  have h0 : copyPartStarts 0 5242880000 = 0 :: copyPartStarts 5242880 5242880000 := by
    rw [copyPartStarts]
    norm_num [max_copy_chunk_size]
  have h1 : copyPartsTo failPartClient 5242880000 =
      (.error "Error uploading part 1", true, []) := by
    have hstep : copyPartsTo failPartClient 5242880000 =
        copyPartsLoop failPartClient 5242880000 [] 1 (copyPartStarts 0 5242880000) := rfl
    rw [hstep, h0]
    decide
  exact ⟨by rw [h1], by rw [h1], rfl⟩

/-! ### C5: local three-chunk multipart upload -/

/-- Claim C5 is false as stated: with configured chunk size 4 and chunks
`[1]`, `[2]`, `[3]` of arbitrary (here unit) sizes, the local backend writes
each chunk at offset `chunkId * chunkSize`, zero-filling the gaps, so the
destination is 9 bytes, not the 3-byte concatenation. -/
theorem C5_counterexample :
    blockMultipartUpload 4 [(0, [1]), (1, [2]), (2, [3])] =
      [1, 0, 0, 0, 2, 0, 0, 0, 3] ∧
    blockMultipartUpload 4 [(0, [1]), (1, [2]), (2, [3])] ≠ [1, 2, 3] ∧
    (blockMultipartUpload 4 [(0, [1]), (1, [2]), (2, [3])]).length ≠ 1 + 1 + 1 := by
  refine ⟨by decide, by decide, by decide⟩

/-- Claim C5 (amended): the local backend writes chunk `i` at byte offset
`i * chunkSize`, so a three-chunk upload `A`, `B`, `C` to a fresh destination
concatenates to `A ++ B ++ C` (with total size `x + y + z`) exactly when the
non-final chunks fill their slots, i.e. when `|A| = |B| = chunkSize`. -/
theorem C5_multipart_concat (chunkSize : Nat) (A B C : List Nat)
    (hA : A.length = chunkSize) (hB : B.length = chunkSize) :
    blockMultipartUpload chunkSize [(0, A), (1, B), (2, C)] = A ++ B ++ C ∧
    (blockMultipartUpload chunkSize [(0, A), (1, B), (2, C)]).length =
      A.length + B.length + C.length := by
  have step0 : writeAt [] 0 A = A := by
    simp [writeAt]
  have step1 : writeAt A chunkSize B = A ++ B := by
    unfold writeAt
    rw [← hA, List.take_length, Nat.sub_self, List.replicate_zero,
      List.drop_eq_nil_of_le (by omega)]
    simp
  have step2 : writeAt (A ++ B) (2 * chunkSize) C = A ++ B ++ C := by
    unfold writeAt
    have hl : (A ++ B).length = 2 * chunkSize := by
      simp [hA, hB]
      omega
    rw [← hl, List.take_length, Nat.sub_self, List.replicate_zero,
      List.drop_eq_nil_of_le (by omega)]
    simp
  have hmain : blockMultipartUpload chunkSize [(0, A), (1, B), (2, C)] = A ++ B ++ C := by
    simp only [blockMultipartUpload, BlockFS.CompleteObjectUpload,
      BlockFS.InitializeObjectUpload, BlockFS.WriteChunk, List.foldl_cons,
      List.foldl_nil, Nat.zero_mul, Nat.one_mul]
    rw [step0, step1, step2]
  refine ⟨hmain, ?_⟩
  rw [hmain]
  simp only [List.length_append]

/-- Witness for C5_multipart_concat with chunk size 2 and chunks of sizes
2, 2, 1. -/
theorem C5_multipart_concat_witness :
    ([1, 2] : List Nat).length = 2 ∧ ([3, 4] : List Nat).length = 2 ∧
    (blockMultipartUpload 2 [(0, [1, 2]), (1, [3, 4]), (2, [5])] =
        [1, 2] ++ [3, 4] ++ [5] ∧
      (blockMultipartUpload 2 [(0, [1, 2]), (1, [3, 4]), (2, [5])]).length =
        ([1, 2] : List Nat).length + ([3, 4] : List Nat).length +
          ([5] : List Nat).length) :=
  ⟨by decide, by decide, C5_multipart_concat 2 [1, 2] [3, 4] [5] (by decide) (by decide)⟩

/-! ### C6: local PutObject ETag input -/

/-- Claim C6 fails on the code (code bug): for each of the three source kinds
supplying the single byte 97 to a fresh destination, the destination holds
`[97]` but the bytes fed to the MD5 hash are empty — `getFileMd5` reads from
the file handle's current offset (the end of the written data) without
seeking, so the returned ETag is the MD5 of the empty string, not the content
hash of the written bytes. -/
theorem C6_etag_bug :
    BlockFS.PutObject [] ⟨none, some [97], none⟩ = .ok [] [97] ∧
    BlockFS.PutObject [] ⟨none, none, some [97]⟩ = .ok [] [97] ∧
    BlockFS.PutObject [] ⟨some [97], none, none⟩ = .ok [] [97] ∧
    ([] : List Nat) ≠ [97] := by
  refine ⟨by decide, by decide, by decide, by decide⟩

/-! ### C7: not-found mapping on both backends -/

/-- Claim C7: a lookup against a non-existent path yields the distinguished
`FileNotFoundError` on both backends.  The environment contract that a
non-existent path makes `os.Stat` return a `*fs.PathError` and makes
`GetObjectAttributes` return the `NoSuchKey` error is taken as hypotheses;
the theorem shows the code maps exactly those to `FileNotFoundError{path}`
and to nothing else. -/
theorem C7_not_found (path msg : String) (stat : BlockStatResult)
    (resp : S3AttrResult) (hstat : stat = .pathError msg)
    (hresp : resp = .noSuchKey) :
    BlockFS.GetObjectInfo path stat = .error (.fileNotFound path) ∧
    S3FS.GetObjectInfo path resp = .error (.fileNotFound path) := by
  subst hstat
  subst hresp
  exact ⟨rfl, rfl⟩

/-- Witness for C7_not_found at a concrete missing path. -/
theorem C7_not_found_witness :
    BlockFS.GetObjectInfo "/data/missing.txt" (.pathError "no such file") =
      .error (.fileNotFound "/data/missing.txt") ∧
    S3FS.GetObjectInfo "/data/missing.txt" .noSuchKey =
      .error (.fileNotFound "/data/missing.txt") :=
  C7_not_found "/data/missing.txt" "no such file" _ _ rfl rfl

/-! ### C8: PutObject with no source -/

/-- Claim C8 fails on the local backend (code bug): with an `ObjectSource`
supplying none of the three source kinds, the remote backend returns the
invalid-input error from `GetReader`, but `BlockFS.PutObject` falls through
its source switch with a nil reader, opens (creates) the destination and then
panics inside `io.Copy` instead of returning an error. -/
theorem C8_missing_source :
    S3FS.PutObject emptySource "etag" =
      .error "Unable to get the Source Reader: invalid objectsource configuration" ∧
    BlockFS.PutObject [] emptySource = .panicNilReader [] := by
  refine ⟨by decide, by decide⟩

/-! ### C9: Retryer.Send -/

theorem sendLoop_ok {ε α : Type} (f : Nat → Except ε α) (m : Int) (k : Nat)
    (hk : (k : Int) ≤ m + 1) (hok : (f k).isOk = true) :
    ∀ (n a : Nat), k - a = n → a ≤ k →
      (∀ j, a ≤ j → j < k → (f j).isOk = false) →
      Retryer.sendLoop f m a = (f k, k + 1) := by
  intro n
  induction n with
  | zero =>
    intro a hn ha _
    have hak : a = k := by omega
    subst hak
    rw [Retryer.sendLoop]
    cases hfe : f a with
    | ok t => rfl
    | error e =>
      simp [hfe, Except.isOk, Except.toBool] at hok
  | succ n ih =>
    intro a hn ha hfail
    have hak : a < k := by omega
    have hfa : (f a).isOk = false := hfail a le_rfl hak
    rw [Retryer.sendLoop]
    cases hfe : f a with
    | ok t =>
      simp [hfe, Except.isOk, Except.toBool] at hfa
    | error e =>
      dsimp only
      rw [dif_neg (by omega)]
      exact ih (a + 1) (by omega) (by omega) (fun j hj1 hj2 => hfail j (by omega) hj2)

theorem sendLoop_allFail {ε α : Type} (f : Nat → Except ε α) (M : Nat)
    (hfail : ∀ j, j ≤ M + 1 → (f j).isOk = false) :
    ∀ (n a : Nat), M + 1 - a = n → a ≤ M + 1 →
      Retryer.sendLoop f (M : Int) a = (f (M + 1), M + 2) := by
  intro n
  induction n with
  | zero =>
    intro a hn ha
    have hak : a = M + 1 := by omega
    subst hak
    have hfa := hfail (M + 1) le_rfl
    rw [Retryer.sendLoop]
    cases hfe : f (M + 1) with
    | ok t =>
      simp [hfe, Except.isOk, Except.toBool] at hfa
    | error e =>
      dsimp only
      rw [dif_pos (by omega)]
  | succ n ih =>
    intro a hn ha
    have hfa := hfail a (by omega)
    rw [Retryer.sendLoop]
    cases hfe : f a with
    | ok t =>
      simp [hfe, Except.isOk, Except.toBool] at hfa
    | error e =>
      dsimp only
      rw [dif_neg (by omega)]
      exact ih (a + 1) (by omega) (by omega)

/-- Claim C9 is false as stated: with `MaxAttempts = 0` an always-failing
operation is invoked twice (the initial attempt plus one retry), exceeding
the claimed bound of `m + 1 = 1` total invocations: the loop only stops once
`attempts > MaxAttempts`, which first holds at the start of the second
retry. -/
theorem C9_counterexample :
    Retryer.Send (fun _ => (Except.error "e" : Except String Nat)) 0 =
      (Except.error "e", 2) ∧
    ¬ ((2 : Nat) ≤ 0 + 1) := by
  constructor
  · have h1 : Retryer.sendLoop (fun _ => (Except.error "e" : Except String Nat)) 0 1 =
        (Except.error "e", 2) := by
      rw [Retryer.sendLoop]
      dsimp only
      rw [dif_pos (by norm_num)]
    have h0 : Retryer.sendLoop (fun _ => (Except.error "e" : Except String Nat)) 0 0 =
        (Except.error "e", 2) := by
      rw [Retryer.sendLoop]
      dsimp only
      rw [dif_neg (by norm_num)]
      exact h1
    exact h0
  · decide

/-- Claim C9 (amended): for every operation and every configured
`MaxAttempts = M ≥ 0`, `Retryer.Send` returns the first successful result if
some invocation among the first `M + 2` succeeds, and otherwise invokes the
operation exactly `M + 2` times (the initial attempt plus `M + 1` retries —
one more than the claim's `m + 1` total) before returning the last error; in
every case it terminates after at most `M + 2` invocations. -/
theorem C9_retryer (ε α : Type) (f : Nat → Except ε α) (M : Nat) :
    (∀ k, k ≤ M + 1 → (∀ j, j < k → (f j).isOk = false) → (f k).isOk = true →
      Retryer.Send f (M : Int) = (f k, k + 1)) ∧
    ((∀ j, j ≤ M + 1 → (f j).isOk = false) →
      Retryer.Send f (M : Int) = (f (M + 1), M + 2)) ∧
    (Retryer.Send f (M : Int)).2 ≤ M + 2 := by
  refine ⟨?_, ?_, ?_⟩
  · intro k hk hfail hok
    exact sendLoop_ok f (M : Int) k (by omega) hok k 0 (by omega) (Nat.zero_le k)
      (fun j _ hj => hfail j hj)
  · intro hfail
    exact sendLoop_allFail f M hfail (M + 1) 0 (by omega) (by omega)
  · by_cases hex : ∃ k, k ≤ M + 1 ∧ (f k).isOk = true
    · have hk0 := Nat.find_spec hex
      have hfaillt : ∀ j, j < Nat.find hex → (f j).isOk = false := by
        intro j hj
        have hmin := Nat.find_min hex hj
        have hjle : j ≤ M + 1 := by omega
        cases hcase : (f j).isOk
        · rfl
        · exact absurd ⟨hjle, hcase⟩ hmin
      have := sendLoop_ok f (M : Int) (Nat.find hex) (by omega) hk0.2
        (Nat.find hex) 0 (by omega) (Nat.zero_le _) (fun j _ hj => hfaillt j hj)
      have hsend : Retryer.Send f (M : Int) = (f (Nat.find hex), Nat.find hex + 1) :=
        this
      rw [hsend]
      omega
    · push_neg at hex
      have hfail : ∀ j, j ≤ M + 1 → (f j).isOk = false := by
        intro j hj
        cases hcase : (f j).isOk
        · rfl
        · exact absurd hcase (hex j hj)
      have hsend : Retryer.Send f (M : Int) = (f (M + 1), M + 2) :=
        sendLoop_allFail f M hfail (M + 1) 0 (by omega) (by omega)
      rw [hsend]

/-- Witness for C9_retryer: an operation that fails once then succeeds, with
`MaxAttempts = 1`: the first success (invocation index 1) is returned after
2 invocations; and an always-failing operation with `MaxAttempts = 0` is
invoked exactly 2 times; the invocation count never exceeds `M + 2`. -/
theorem C9_retryer_witness :
    (1 : Nat) ≤ 1 + 1 ∧
    Retryer.Send (fun j => if j = 0 then (Except.error "e" : Except String Nat)
      else Except.ok 7) (1 : Nat) =
      ((fun j => if j = 0 then (Except.error "e" : Except String Nat)
        else Except.ok 7) 1, 1 + 1) ∧
    (Retryer.Send (fun _ => (Except.error "e" : Except String Nat)) (0 : Nat)).2 ≤
      0 + 2 :=
  ⟨by decide,
   (C9_retryer String Nat
      (fun j => if j = 0 then (Except.error "e" : Except String Nat)
        else Except.ok 7) 1).1 1 (by decide)
     (fun j hj => by interval_cases j; decide) (by decide),
   (C9_retryer String Nat (fun _ => (Except.error "e" : Except String Nat)) 0).2.2⟩

/-! ### C10: local byte-range reads -/

theorem parseRange_nonneg {input : List Char} {r : ByteRange}
    (h : parseRange input = .ok r) : 0 ≤ r.start ∧ 0 ≤ r.stop := by
  unfold parseRange at h
  repeat split at h
  all_goals first
    | (injection h with h2
       subst h2
       exact ⟨Int.natCast_nonneg _, Int.natCast_nonneg _⟩)
    | simp at h

theorem readAtFill_eq_map (file : List Nat) (off n : Nat) :
    readAtFill file off n = (List.range n).map (fun i => file.getD (off + i) 0) := by
  apply List.ext_getElem
  · simp only [readAtFill, List.length_append, List.length_take,
      List.length_replicate, List.length_drop, List.length_map, List.length_range]
    omega
  · intro i h1 h2
    simp only [List.length_map, List.length_range] at h2
    rw [List.getElem_map, List.getElem_range]
    simp only [readAtFill] at h1 ⊢
    by_cases hlt : i < ((file.drop off).take n).length
    · rw [List.getElem_append_left hlt]
      rw [List.getElem_take, List.getElem_drop]
      simp only [List.length_take, List.length_drop] at hlt
      rw [List.getD_eq_getElem file 0 (by omega)]
    · rw [List.getElem_append_right (by omega)]
      rw [List.getElem_replicate]
      simp only [List.length_take, List.length_drop] at hlt
      rw [List.getD_eq_default file 0 (by omega)]

/-- Claim C10 is false as stated: `bytes=5-3` is a syntactically valid range
expression (`unit=a-b` with decimal bounds), but on it the local `GetObject`
computes `make([]byte, End-Start)` with a negative length, which panics at
runtime instead of returning a buffer and a nil error. -/
theorem C10_counterexample :
    parseRange ("bytes=5-3".toList) = .ok ⟨"bytes".toList, 5, 3⟩ ∧
    BlockFS.GetObject [1, 2, 3, 4, 5, 6] ("bytes=5-3".toList) = .panicSlice := by
  constructor
  · decide
  · decide

/-- Claim C10 (amended): for every existing file and every syntactically
valid range `unit=a-b` with `a ≤ b`, the local `GetObject` returns a stream
of exactly `b - a` bytes (half-open, not the `b - a + 1` of an inclusive
range) and a nil error, even when the range extends past the end of the file:
the positioned-read error is discarded and the unfilled tail of the buffer
stays zero.  When `b < a` the code instead panics (see the counterexample),
so `a ≤ b` is required. -/
theorem C10_local_range_read (file : List Nat) (u : List Char) (a b : Int)
    (rs : List Char) (hp : parseRange rs = .ok ⟨u, a, b⟩) (hab : a ≤ b) :
    BlockFS.GetObject file rs =
      .stream ((List.range (b - a).toNat).map (fun i => file.getD (a.toNat + i) 0)) ∧
    ((List.range (b - a).toNat).map (fun i => file.getD (a.toNat + i) 0)).length =
      (b - a).toNat := by
  have hnn := parseRange_nonneg hp
  simp only at hnn
  have hrs : rs.isEmpty = false := by
    cases rs with
    | nil =>
      have hne : parseRange [] = Except.error "invalid range input format" := by decide
      simp [hne] at hp
    | cons c cs => rfl
  constructor
  · unfold BlockFS.GetObject
    rw [hrs]
    simp only [Bool.false_eq_true, if_false]
    rw [hp]
    dsimp only
    rw [if_neg (by omega)]
    rw [readAtFill_eq_map]
  · simp

/-- Witness for C10_local_range_read: reading `bytes=0-20` from a 3-byte file
yields 20 bytes (the 3 file bytes then 17 zeros) and no error. -/
theorem C10_local_range_read_witness :
    parseRange ("bytes=0-20".toList) = .ok ⟨"bytes".toList, 0, 20⟩ ∧
    (0 : Int) ≤ 20 ∧
    (BlockFS.GetObject [10, 20, 30] ("bytes=0-20".toList) =
        .stream ((List.range ((20 : Int) - 0).toNat).map
          (fun i => ([10, 20, 30] : List Nat).getD ((0 : Int).toNat + i) 0)) ∧
      ((List.range ((20 : Int) - 0).toNat).map
          (fun i => ([10, 20, 30] : List Nat).getD ((0 : Int).toNat + i) 0)).length =
        ((20 : Int) - 0).toNat) :=
  ⟨by decide, by decide,
   C10_local_range_read [10, 20, 30] ("bytes".toList) 0 20 ("bytes=0-20".toList)
     (by decide) (by decide)⟩

/-! ### C2 helper lemmas: characters and percent-escaping -/

theorem ne_of_toNat_ne {c d : Char} (h : c.toNat ≠ d.toNat) : c ≠ d :=
  fun he => h (congrArg Char.toNat he)

theorem char_eq_of_toNat_eq {a b : Char} (h : a.toNat = b.toNat) : a = b := by
  rw [← Char.ofNat_toNat a, ← Char.ofNat_toNat b, h]

theorem hexVal_hexUpperDigit : ∀ n < 16, hexVal (hexUpperDigit n) = some n := by decide

theorem hexUpperDigit_toNat : ∀ n < 16,
    (48 ≤ (hexUpperDigit n).toNat ∧ (hexUpperDigit n).toNat ≤ 57) ∨
      (65 ≤ (hexUpperDigit n).toNat ∧ (hexUpperDigit n).toNat ≤ 70) := by decide

theorem isUnreserved_toNat {c : Char} (h : isUnreservedQueryChar c = true) :
    (65 ≤ c.toNat ∧ c.toNat ≤ 90) ∨ (97 ≤ c.toNat ∧ c.toNat ≤ 122) ∨
      (48 ≤ c.toNat ∧ c.toNat ≤ 57) ∨ c.toNat = 45 ∨ c.toNat = 95 ∨
      c.toNat = 46 ∨ c.toNat = 126 := by
  simpa [isUnreservedQueryChar] using h

theorem escChar_ne_nil (c : Char) : escChar c ≠ [] := by
  unfold escChar
  split_ifs <;> simp

theorem mem_escChar_toNat {c d : Char} (hd : d ∈ escChar c) :
    d.toNat < 256 ∧ d.toNat ≠ 38 ∧ d.toNat ≠ 61 ∧ d.toNat ≠ 63 ∧ d.toNat ≠ 59 := by
  unfold escChar at hd
  split_ifs at hd with h1 h2
  · simp only [List.mem_singleton] at hd
    subst hd
    have := isUnreserved_toNat h1
    omega
  · simp only [List.mem_singleton] at hd
    subst hd
    refine ⟨by decide, by decide, by decide, by decide, by decide⟩
  · simp only [List.mem_cons, List.mem_singleton, List.not_mem_nil, or_false] at hd
    rcases hd with hd | hd | hd
    · subst hd
      refine ⟨by decide, by decide, by decide, by decide, by decide⟩
    · subst hd
      have := hexUpperDigit_toNat (c.toNat / 16 % 16) (by omega)
      omega
    · subst hd
      have := hexUpperDigit_toNat (c.toNat % 16) (by omega)
      omega

theorem mem_queryEscape {d : Char} {s : List Char} (hd : d ∈ queryEscape s) :
    ∃ c ∈ s, d ∈ escChar c := by
  simp only [queryEscape, List.mem_flatten, List.mem_map] at hd
  obtain ⟨l, ⟨c, hc, rfl⟩, hdl⟩ := hd
  exact ⟨c, hc, hdl⟩

theorem queryEscape_toNat {d : Char} {s : List Char} (hd : d ∈ queryEscape s) :
    d.toNat < 256 ∧ d.toNat ≠ 38 ∧ d.toNat ≠ 61 ∧ d.toNat ≠ 63 ∧ d.toNat ≠ 59 := by
  obtain ⟨c, _, hdc⟩ := mem_queryEscape hd
  exact mem_escChar_toNat hdc

set_option maxRecDepth 2000 in
theorem toNat_ofNat_small : ∀ m < 256, (Char.ofNat m).toNat = m := by decide

theorem hexVal_le {c : Char} {v : Nat} (h : hexVal c = some v) : v ≤ 15 := by
  unfold hexVal at h
  split_ifs at h <;> (try injection h with h) <;> omega

theorem queryUnescape_cons_ne (c : Char) (rest : List Char) (h1 : c ≠ '%') :
    queryUnescape (c :: rest) =
      if c = '+' then (queryUnescape rest).map (fun r => ' ' :: r)
      else (queryUnescape rest).map (fun r => c :: r) := by
  rw [queryUnescape.eq_def]
  dsimp only
  rw [if_neg h1]

theorem queryUnescape_pct (h l : Char) (rest2 : List Char) :
    queryUnescape ('%' :: h :: l :: rest2) =
      match hexVal h, hexVal l with
      | some hv, some lv =>
        (queryUnescape rest2).map (fun r => Char.ofNat (16 * hv + lv) :: r)
      | _, _ => none := by
  rw [queryUnescape.eq_def]
  dsimp only
  rw [if_pos rfl]

theorem queryUnescape_pct_nil : queryUnescape ['%'] = none := by
  rw [queryUnescape.eq_def]
  dsimp only
  rw [if_pos rfl]

theorem queryUnescape_pct_one (h : Char) : queryUnescape ['%', h] = none := by
  rw [queryUnescape.eq_def]
  dsimp only
  rw [if_pos rfl]

theorem queryUnescape_escChar (c : Char) (hc : c.toNat < 256) (rest : List Char) :
    queryUnescape (escChar c ++ rest) = (queryUnescape rest).map (fun r => c :: r) := by
  have h37 : ('%' : Char).toNat = 37 := by decide
  have h43 : ('+' : Char).toNat = 43 := by decide
  unfold escChar
  split_ifs with h1 h2
  · have hr := isUnreserved_toNat h1
    have hne1 : c ≠ '%' := ne_of_toNat_ne (by rw [h37]; omega)
    have hne2 : c ≠ '+' := ne_of_toNat_ne (by rw [h43]; omega)
    rw [List.singleton_append, queryUnescape_cons_ne c rest hne1, if_neg hne2]
  · subst h2
    rw [List.singleton_append, queryUnescape_cons_ne '+' rest (by decide), if_pos rfl]
  · rw [List.cons_append, List.cons_append, List.singleton_append, queryUnescape_pct]
    rw [hexVal_hexUpperDigit (c.toNat / 16 % 16) (by omega),
      hexVal_hexUpperDigit (c.toNat % 16) (by omega)]
    dsimp only
    have harith : 16 * (c.toNat / 16 % 16) + c.toNat % 16 = c.toNat := by omega
    rw [harith, Char.ofNat_toNat]

theorem queryUnescape_queryEscape (s : List Char) (hs : AllBytes s) :
    queryUnescape (queryEscape s) = some s := by
  induction s with
  | nil => rfl
  | cons c cs ih =>
    have hstep : queryEscape (c :: cs) = escChar c ++ queryEscape cs := by
      simp [queryEscape]
    rw [hstep, queryUnescape_escChar c (hs c (List.mem_cons_self c cs)) _,
      ih (fun d hd => hs d (List.mem_cons_of_mem c hd))]
    rfl

theorem queryUnescape_bytes :
    ∀ (n : Nat) (s : List Char), s.length ≤ n → AllBytes s →
      ∀ r, queryUnescape s = some r → AllBytes r := by
  intro n
  induction n with
  | zero =>
    intro s hlen hs r h
    have hs0 : s = [] := List.length_eq_zero.mp (by omega)
    subst hs0
    rw [queryUnescape] at h
    injection h with h
    subst h
    intro c hc
    exact absurd hc (List.not_mem_nil c)
  | succ n ih =>
    intro s hlen hs r h
    match s, hs, hlen, h with
    | [], _, _, h =>
      rw [queryUnescape] at h
      injection h with h
      subst h
      intro c hc
      exact absurd hc (List.not_mem_nil c)
    | c :: cs, hs, hlen, h =>
      have hcs : AllBytes cs := fun d hd => hs d (List.mem_cons_of_mem c hd)
      by_cases h1 : c = '%'
      · subst h1
        match cs, hcs, hlen, h with
        | [], _, _, h => exact absurd (queryUnescape_pct_nil ▸ h) (by simp)
        | [ch], _, _, h => exact absurd (queryUnescape_pct_one ch ▸ h) (by simp)
        | ch :: cl :: rest2, hcs, hlen, h =>
          rw [queryUnescape_pct] at h
          match hh : hexVal ch, hl : hexVal cl with
          | some hv, some lv =>
            rw [hh, hl] at h
            dsimp only at h
            cases hrec : queryUnescape rest2 with
            | none => rw [hrec] at h; exact absurd h (by simp)
            | some r2 =>
              rw [hrec] at h
              simp only [Option.map_some'] at h
              injection h with h
              subst h
              intro d hd
              rcases List.mem_cons.mp hd with hd | hd
              · subst hd
                have hhv := hexVal_le hh
                have hlv := hexVal_le hl
                rw [toNat_ofNat_small (16 * hv + lv) (by omega)]
                omega
              · exact ih rest2 (by simp at hlen; omega)
                  (fun d2 hd2 => hcs d2
                    (List.mem_cons_of_mem ch (List.mem_cons_of_mem cl hd2)))
                  r2 hrec d hd
          | some hv, none => rw [hh, hl] at h; exact absurd h (by simp)
          | none, hx => rw [hh] at h; exact absurd h (by simp)
      · by_cases h2 : c = '+'
        · rw [queryUnescape_cons_ne c cs h1, if_pos h2] at h
          cases hrec : queryUnescape cs with
          | none => rw [hrec] at h; exact absurd h (by simp)
          | some r2 =>
            rw [hrec] at h
            simp only [Option.map_some'] at h
            injection h with h
            subst h
            intro d hd
            rcases List.mem_cons.mp hd with hd | hd
            · subst hd
              decide
            · exact ih cs (by simp at hlen; omega) hcs r2 hrec d hd
        · rw [queryUnescape_cons_ne c cs h1, if_neg h2] at h
          cases hrec : queryUnescape cs with
          | none => rw [hrec] at h; exact absurd h (by simp)
          | some r2 =>
            rw [hrec] at h
            simp only [Option.map_some'] at h
            injection h with h
            subst h
            intro d hd
            rcases List.mem_cons.mp hd with hd | hd
            · subst hd
              exact hs _ (List.mem_cons_self _ _)
            · exact ih cs (by simp at hlen; omega) hcs r2 hrec d hd

/-! ### C2 helper lemmas: decimal and integer round-trips -/

theorem digitChar_toNat : ∀ d < 10, (digitChar d).toNat = 48 + d := by decide

theorem natDigitsRev_lt : ∀ (n : Nat), ∀ d ∈ natDigitsRev n, d < 10 := by
  intro n
  induction n using Nat.strong_induction_on with
  | _ n ih =>
    intro d hd
    rw [natDigitsRev] at hd
    split_ifs at hd with h0
    · exact absurd hd (List.not_mem_nil d)
    · rcases List.mem_cons.mp hd with hd | hd
      · subst hd
        exact Nat.mod_lt n (by omega)
      · exact ih (n / 10) (by omega) d hd

theorem natDigitsRev_ne_nil {n : Nat} (h : n ≠ 0) : natDigitsRev n ≠ [] := by
  rw [natDigitsRev, if_neg h]
  simp

theorem foldl_digits : ∀ (n : Nat),
    ((natDigitsRev n).reverse.map digitChar).foldl
      (fun a c => 10 * a + (c.toNat - 48)) 0 = n := by
  intro n
  induction n using Nat.strong_induction_on with
  | _ n ih =>
    rw [natDigitsRev]
    split_ifs with h0
    · subst h0
      rfl
    · rw [List.reverse_cons, List.map_append, List.foldl_append]
      rw [ih (n / 10) (by omega)]
      simp only [List.map_cons, List.map_nil, List.foldl_cons, List.foldl_nil]
      rw [digitChar_toNat (n % 10) (Nat.mod_lt n (by omega))]
      omega

theorem natToChars_digits (n : Nat) :
    ∀ c ∈ natToChars n, 48 ≤ c.toNat ∧ c.toNat ≤ 57 := by
  intro c hc
  unfold natToChars at hc
  split_ifs at hc with h0
  · simp only [List.mem_singleton] at hc
    subst hc
    decide
  · simp only [List.mem_map, List.mem_reverse] at hc
    obtain ⟨d, hd, rfl⟩ := hc
    have hlt := natDigitsRev_lt n d hd
    rw [digitChar_toNat d hlt]
    omega

theorem natToChars_ne_nil (n : Nat) : natToChars n ≠ [] := by
  unfold natToChars
  split_ifs with h0
  · simp
  · simp [natDigitsRev_ne_nil h0]

theorem parseNatDigits_natToChars (n : Nat) : parseNatDigits (natToChars n) = some n := by
  unfold parseNatDigits
  rw [if_pos ⟨natToChars_ne_nil n, natToChars_digits n⟩]
  by_cases h0 : n = 0
  · subst h0
    rfl
  · unfold natToChars
    rw [if_neg h0]
    rw [foldl_digits n]

theorem intToChars_head (i : Int) (hi : 0 ≤ i) :
    ∃ c rest, intToChars i = c :: rest ∧ c ≠ '-' ∧ c ≠ '+' ∧
      parseNatDigits (c :: rest) = some i.toNat := by
  have hne := natToChars_ne_nil i.toNat
  unfold intToChars
  rw [if_neg (by omega)]
  cases hform : natToChars i.toNat with
  | nil => exact absurd hform hne
  | cons c rest =>
    have hc : 48 ≤ c.toNat ∧ c.toNat ≤ 57 :=
      natToChars_digits i.toNat c (hform ▸ List.mem_cons_self c rest)
    refine ⟨c, rest, rfl, ne_of_toNat_ne (by rw [show ('-' : Char).toNat = 45 from by decide]; omega),
      ne_of_toNat_ne (by rw [show ('+' : Char).toNat = 43 from by decide]; omega), ?_⟩
    rw [← hform, parseNatDigits_natToChars]

theorem parseIntChars_intToChars (i : Int) : parseIntChars (intToChars i) = some i := by
  by_cases hneg : i < 0
  · have hstep : intToChars i = '-' :: natToChars (-i).toNat := by
      unfold intToChars
      rw [if_pos hneg]
    rw [hstep, parseIntChars.eq_def]
    dsimp only
    rw [if_pos rfl, parseNatDigits_natToChars]
    simp only [Option.map_some', Option.some.injEq]
    omega
  · obtain ⟨c, rest, hform, hnd, hnp, hparse⟩ := intToChars_head i (by omega)
    rw [hform, parseIntChars.eq_def]
    dsimp only
    rw [if_neg hnd, if_neg hnp, hparse]
    simp only [Option.map_some', Option.some.injEq]
    omega

theorem natToChars_bytes (n : Nat) : AllBytes (natToChars n) := by
  intro c hc
  have := natToChars_digits n c hc
  omega

theorem intToChars_bytes (i : Int) : AllBytes (intToChars i) := by
  intro c hc
  unfold intToChars at hc
  split_ifs at hc with hneg
  · rcases List.mem_cons.mp hc with hc | hc
    · subst hc
      decide
    · exact natToChars_bytes _ c hc
  · exact natToChars_bytes _ c hc

/-! ### C2 helper lemmas: base64 -/

theorem b64Val_b64Char : ∀ n < 64, b64Val (b64Char n) = some n := by decide

theorem b64Char_ne_pad : ∀ n < 64, b64Char n ≠ '=' := by decide

theorem b64Char_byte (n : Nat) : (b64Char n).toNat < 256 := by
  by_cases hn : n < 64
  · revert hn
    revert n
    decide
  · unfold b64Char
    rw [List.getD_eq_default _ _ (by rw [show ("ABCDEFGHIJKLMNOPQRSTUVWXYZabcdefghijklmnopqrstuvwxyz0123456789+/".toList).length = 64 from by decide]; omega)]
    decide

theorem b64encode_bytes (bs : List Nat) : AllBytes (b64encode bs) := by
  induction bs using b64encode.induct with
  | case1 =>
    intro c hc
    exact absurd hc (List.not_mem_nil c)
  | case2 a =>
    intro c hc
    rw [b64encode] at hc
    rcases List.mem_cons.mp hc with hc | hc
    · subst hc; exact b64Char_byte _
    rcases List.mem_cons.mp hc with hc | hc
    · subst hc; exact b64Char_byte _
    rcases List.mem_cons.mp hc with hc | hc
    · subst hc; decide
    simp only [List.mem_singleton] at hc
    subst hc; decide
  | case3 a b =>
    intro c hc
    rw [b64encode] at hc
    rcases List.mem_cons.mp hc with hc | hc
    · subst hc; exact b64Char_byte _
    rcases List.mem_cons.mp hc with hc | hc
    · subst hc; exact b64Char_byte _
    rcases List.mem_cons.mp hc with hc | hc
    · subst hc; exact b64Char_byte _
    simp only [List.mem_singleton] at hc
    subst hc; decide
  | case4 a b c rest ih =>
    intro d hd
    rw [b64encode] at hd
    rcases List.mem_cons.mp hd with hd | hd
    · subst hd; exact b64Char_byte _
    rcases List.mem_cons.mp hd with hd | hd
    · subst hd; exact b64Char_byte _
    rcases List.mem_cons.mp hd with hd | hd
    · subst hd; exact b64Char_byte _
    rcases List.mem_cons.mp hd with hd | hd
    · subst hd; exact b64Char_byte _
    exact ih d hd

theorem b64decode_b64encode (bs : List Nat) (hbs : ∀ b ∈ bs, b < 256) :
    b64decode (b64encode bs) = some bs := by
  induction bs using b64encode.induct with
  | case1 => rfl
  | case2 a =>
    have ha : a < 256 := hbs a (List.mem_cons_self a [])
    rw [b64encode, b64decode]
    rw [if_pos ⟨rfl, rfl, rfl⟩]
    rw [b64Val_b64Char (a / 4) (by omega), b64Val_b64Char (a % 4 * 16) (by omega)]
    dsimp only
    congr 1
    have : a / 4 * 4 + a % 4 * 16 / 16 = a := by omega
    rw [this]
  | case3 a b =>
    have ha : a < 256 := hbs a (List.mem_cons_self a [b])
    have hb : b < 256 := hbs b (List.mem_cons_of_mem a (List.mem_cons_self b []))
    rw [b64encode, b64decode]
    rw [if_neg (by
      rintro ⟨-, h3, -⟩
      exact b64Char_ne_pad (b % 16 * 4) (by omega) h3)]
    rw [if_pos ⟨rfl, rfl⟩]
    rw [b64Val_b64Char (a / 4) (by omega), b64Val_b64Char (a % 4 * 16 + b / 16) (by omega),
      b64Val_b64Char (b % 16 * 4) (by omega)]
    dsimp only
    congr 1
    have h1 : a / 4 * 4 + (a % 4 * 16 + b / 16) / 16 = a := by omega
    have h2 : (a % 4 * 16 + b / 16) % 16 * 16 + b % 16 * 4 / 4 = b := by omega
    rw [h1, h2]
  | case4 a b c rest ih =>
    have ha : a < 256 := hbs a (by simp)
    have hb : b < 256 := hbs b (by simp)
    have hc : c < 256 := hbs c (by simp)
    have hrest : ∀ x ∈ rest, x < 256 := fun x hx => hbs x (by simp [hx])
    rw [b64encode, b64decode]
    rw [if_neg (by
      rintro ⟨-, h3, -⟩
      exact b64Char_ne_pad (b % 16 * 4 + c / 64) (by omega) h3)]
    rw [if_neg (by
      rintro ⟨-, h4⟩
      exact b64Char_ne_pad (c % 64) (by omega) h4)]
    rw [b64Val_b64Char (a / 4) (by omega), b64Val_b64Char (a % 4 * 16 + b / 16) (by omega),
      b64Val_b64Char (b % 16 * 4 + c / 64) (by omega), b64Val_b64Char (c % 64) (by omega)]
    dsimp only
    rw [ih hrest]
    simp only [Option.map_some', Option.some.injEq]
    have h1 : a / 4 * 4 + (a % 4 * 16 + b / 16) / 16 = a := by omega
    have h2 : (a % 4 * 16 + b / 16) % 16 * 16 + (b % 16 * 4 + c / 64) / 4 = b := by omega
    have h3 : (b % 16 * 4 + c / 64) % 4 * 64 + c % 64 = c := by omega
    rw [h1, h2, h3]

/-! ### C2 helper lemmas: splitting, cutting and joining -/

theorem splitOnChar_ne_nil (sep : Char) (s : List Char) : splitOnChar sep s ≠ [] := by
  cases s with
  | nil =>
    rw [splitOnChar]
    simp
  | cons c cs =>
    rw [splitOnChar.eq_def]
    dsimp only
    split_ifs
    · simp
    · cases splitOnChar sep cs <;> simp

theorem splitOnChar_no_sep (sep : Char) (a : List Char) (ha : sep ∉ a) :
    splitOnChar sep a = [a] := by
  induction a with
  | nil => rfl
  | cons c cs ih =>
    have hc : ¬ c = sep := fun he => ha (he ▸ List.mem_cons_self c cs)
    rw [splitOnChar.eq_def]
    dsimp only
    rw [if_neg hc, ih (fun hm => ha (List.mem_cons_of_mem c hm))]

theorem splitOnChar_sep_cons (sep : Char) (a rest : List Char) (ha : sep ∉ a) :
    splitOnChar sep (a ++ sep :: rest) = a :: splitOnChar sep rest := by
  induction a with
  | nil =>
    rw [List.nil_append, splitOnChar.eq_def]
    dsimp only
    rw [if_pos rfl]
  | cons c cs ih =>
    have hc : ¬ c = sep := fun he => ha (he ▸ List.mem_cons_self c cs)
    rw [List.cons_append, splitOnChar.eq_def]
    dsimp only
    rw [if_neg hc, ih (fun hm => ha (List.mem_cons_of_mem c hm))]

theorem splitOnChar_joinWith (sep : Char) :
    ∀ (ps : List (List Char)), ps ≠ [] → (∀ p ∈ ps, sep ∉ p) →
      splitOnChar sep (joinWith sep ps) = ps := by
  intro ps
  induction ps with
  | nil => intro h _; exact absurd rfl h
  | cons a ps ih =>
    intro _ hall
    cases ps with
    | nil =>
      rw [joinWith]
      exact splitOnChar_no_sep sep a (hall a (List.mem_cons_self a []))
    | cons b ps2 =>
      have hjw : joinWith sep (a :: b :: ps2) = a ++ sep :: joinWith sep (b :: ps2) := by
        rw [joinWith]
        simp
      rw [hjw]
      rw [splitOnChar_sep_cons sep a _ (hall a (List.mem_cons_self a _))]
      rw [ih (by simp) (fun p hp => hall p (List.mem_cons_of_mem a hp))]

theorem mem_of_mem_splitOnChar (sep : Char) :
    ∀ (s : List Char) (p : List Char), p ∈ splitOnChar sep s →
      ∀ c ∈ p, c ∈ s := by
  intro s
  induction s with
  | nil =>
    intro p hp c hc
    rw [splitOnChar] at hp
    simp only [List.mem_singleton] at hp
    subst hp
    exact absurd hc (List.not_mem_nil c)
  | cons d ds ih =>
    intro p hp c hc
    rw [splitOnChar.eq_def] at hp
    dsimp only at hp
    split_ifs at hp with hd
    · rcases List.mem_cons.mp hp with hp | hp
      · subst hp
        exact absurd hc (List.not_mem_nil c)
      · exact List.mem_cons_of_mem d (ih p hp c hc)
    · cases hr : splitOnChar sep ds with
      | nil => exact absurd hr (splitOnChar_ne_nil sep ds)
      | cons a as =>
        rw [hr] at hp
        rcases List.mem_cons.mp hp with hp | hp
        · subst hp
          rcases List.mem_cons.mp hc with hc | hc
          · subst hc
            exact List.mem_cons_self c ds
          · exact List.mem_cons_of_mem d (ih a (hr ▸ List.mem_cons_self a as) c hc)
        · exact List.mem_cons_of_mem d (ih p (hr ▸ List.mem_cons_of_mem a hp) c hc)

theorem mem_joinWith (sep : Char) :
    ∀ (ps : List (List Char)) (c : Char), c ∈ joinWith sep ps →
      c = sep ∨ ∃ p ∈ ps, c ∈ p := by
  intro ps
  induction ps with
  | nil =>
    intro c hc
    rw [joinWith] at hc
    exact absurd hc (List.not_mem_nil c)
  | cons a ps ih =>
    intro c hc
    cases ps with
    | nil =>
      rw [joinWith] at hc
      exact Or.inr ⟨a, List.mem_cons_self a [], hc⟩
    | cons b ps2 =>
      have hjw : joinWith sep (a :: b :: ps2) = a ++ sep :: joinWith sep (b :: ps2) := by
        rw [joinWith]
        simp
      rw [hjw] at hc
      rcases List.mem_append.mp hc with hc | hc
      · exact Or.inr ⟨a, List.mem_cons_self a _, hc⟩
      · rcases List.mem_cons.mp hc with hc | hc
        · exact Or.inl hc
        · rcases ih c hc with hs | ⟨p, hp, hcp⟩
          · exact Or.inl hs
          · exact Or.inr ⟨p, List.mem_cons_of_mem a hp, hcp⟩

theorem cutAt_no_sep (sep : Char) :
    ∀ (s : List Char), sep ∉ s → cutAt sep s = (s, []) := by
  intro s
  induction s with
  | nil => intro _; rfl
  | cons c cs ih =>
    intro hs
    have hc : ¬ c = sep := fun he => hs (he ▸ List.mem_cons_self c cs)
    rw [cutAt.eq_def]
    dsimp only
    rw [if_neg hc, ih (fun hm => hs (List.mem_cons_of_mem c hm))]

theorem cutAt_append_sep (sep : Char) :
    ∀ (a b : List Char), sep ∉ a → cutAt sep (a ++ sep :: b) = (a, b) := by
  intro a
  induction a with
  | nil =>
    intro b _
    rw [List.nil_append, cutAt.eq_def]
    dsimp only
    rw [if_pos rfl]
  | cons c cs ih =>
    intro b ha
    have hc : ¬ c = sep := fun he => ha (he ▸ List.mem_cons_self c cs)
    rw [List.cons_append, cutAt.eq_def]
    dsimp only
    rw [if_neg hc, ih b (fun hm => ha (List.mem_cons_of_mem c hm))]

theorem cutAt_mem (sep : Char) :
    ∀ (s : List Char) (c : Char),
      (c ∈ (cutAt sep s).1 → c ∈ s) ∧ (c ∈ (cutAt sep s).2 → c ∈ s) := by
  intro s
  induction s with
  | nil =>
    intro c
    exact ⟨fun h => absurd h (List.not_mem_nil c), fun h => absurd h (List.not_mem_nil c)⟩
  | cons d ds ih =>
    intro c
    rw [cutAt.eq_def]
    dsimp only
    split_ifs with hd
    · exact ⟨fun h => absurd h (List.not_mem_nil c),
        fun h => List.mem_cons_of_mem d h⟩
    · rcases hr : cutAt sep ds with ⟨a, b⟩
      dsimp only
      constructor
      · intro h
        rcases List.mem_cons.mp h with h | h
        · subst h
          exact List.mem_cons_self c ds
        · exact List.mem_cons_of_mem d ((ih c).1 (hr ▸ h))
      · intro h
        exact List.mem_cons_of_mem d ((ih c).2 (hr ▸ h))

theorem cutAt_fst_no_sep (sep : Char) :
    ∀ (s : List Char), sep ∉ (cutAt sep s).1 := by
  intro s
  induction s with
  | nil => simp [cutAt]
  | cons c cs ih =>
    rw [cutAt.eq_def]
    dsimp only
    split_ifs with hc
    · simp
    · rcases hr : cutAt sep cs with ⟨a, b⟩
      dsimp only
      intro hmem
      rcases List.mem_cons.mp hmem with h | h
      · exact hc h.symm
      · exact ih (hr ▸ h : sep ∈ (cutAt sep cs).1)

/-! ### C2 helper lemmas: query pair lists -/

theorem valuesOf_nil (k : List Char) : valuesOf k [] = [] := rfl

theorem valuesOf_append (k : List Char) (q1 q2 : QueryPairs) :
    valuesOf k (q1 ++ q2) = valuesOf k q1 ++ valuesOf k q2 := by
  simp [valuesOf]

theorem valuesOf_cons (k : List Char) (p : List Char × List Char) (q : QueryPairs) :
    valuesOf k (p :: q) = if p.1 = k then p.2 :: valuesOf k q else valuesOf k q := by
  simp only [valuesOf, List.filterMap_cons]
  split_ifs with h <;> simp [h]

theorem mem_valuesOf {k v : List Char} {q : QueryPairs} :
    v ∈ valuesOf k q ↔ (k, v) ∈ q := by
  induction q with
  | nil => simp [valuesOf]
  | cons p q ih =>
    rcases p with ⟨pk, pv⟩
    rw [valuesOf_cons]
    split_ifs with h
    · simp only at h
      subst h
      simp [ih]
    · simp only at h
      rw [List.mem_cons, ih]
      simp only [Prod.mk.injEq]
      constructor
      · exact Or.inr
      · rintro (⟨he, -⟩ | hm)
        · exact absurd he.symm h
        · exact hm

theorem valuesOf_eq_nil_iff {k : List Char} {q : QueryPairs} :
    valuesOf k q = [] ↔ k ∉ q.map Prod.fst := by
  induction q with
  | nil => simp [valuesOf]
  | cons p q ih =>
    rw [valuesOf_cons]
    split_ifs with h
    · simp [h.symm]
    · simp only [List.map_cons, List.mem_cons, ih]
      constructor
      · rintro hq (he | hm)
        · exact h he.symm
        · exact hq hm
      · intro hq
        exact fun hm => hq (Or.inr hm)

theorem valuesOf_delKey (j k : List Char) (q : QueryPairs) :
    valuesOf j (delKey k q) = if j = k then [] else valuesOf j q := by
  induction q with
  | nil => simp [delKey, valuesOf]
  | cons p q ih =>
    by_cases hpk : p.1 = k
    · have hstep : delKey k (p :: q) = delKey k q := by
        simp [delKey, List.filter_cons, hpk]
      rw [hstep, ih]
      split_ifs with hjk
      · rfl
      · rw [valuesOf_cons, if_neg (by rw [hpk]; exact fun he => hjk he.symm)]
    · have hstep : delKey k (p :: q) = p :: delKey k q := by
        simp [delKey, List.filter_cons, hpk]
      rw [hstep, valuesOf_cons, ih, valuesOf_cons]
      split_ifs with hp1 hjk hjk
      · rw [hp1] at hpk
        exact absurd hjk hpk
      · rfl
      · rfl
      · rfl

theorem delKey_append (k : List Char) (q1 q2 : QueryPairs) :
    delKey k (q1 ++ q2) = delKey k q1 ++ delKey k q2 := by
  simp [delKey]

theorem delKey_eq_self {k : List Char} {q : QueryPairs} (h : k ∉ q.map Prod.fst) :
    delKey k q = q := by
  induction q with
  | nil => rfl
  | cons p q ih =>
    simp only [List.map_cons, List.mem_cons] at h
    push_neg at h
    have hstep : delKey k (p :: q) = p :: delKey k q := by
      simp only [delKey, List.filter_cons]
      rw [if_pos (by simpa using fun he => h.1 he.symm)]
    rw [hstep, ih h.2]

theorem valuesOf_alterFirst_other {j k : List Char} (hjk : j ≠ k) (v' : List Char)
    (q : QueryPairs) : valuesOf j (alterFirst k v' q) = valuesOf j q := by
  induction q with
  | nil => rfl
  | cons p q ih =>
    rw [alterFirst]
    split_ifs with hpk
    · rw [valuesOf_cons, valuesOf_cons]
      simp only
      rw [if_neg (fun he => hjk he.symm), if_neg (by rw [hpk]; exact fun he => hjk he.symm)]
    · rw [valuesOf_cons, valuesOf_cons, ih]

theorem valuesOf_alterFirst_same (k v' : List Char) (q : QueryPairs)
    (hmem : k ∈ q.map Prod.fst) :
    valuesOf k (alterFirst k v' q) = v' :: (valuesOf k q).tail := by
  induction q with
  | nil => exact absurd hmem (by simp)
  | cons p q ih =>
    rw [alterFirst]
    split_ifs with hpk
    · rw [valuesOf_cons, valuesOf_cons]
      simp only [if_pos rfl, if_pos hpk]
      rfl
    · rw [valuesOf_cons, if_neg hpk, valuesOf_cons, if_neg hpk]
      rw [List.map_cons] at hmem
      rcases List.mem_cons.mp hmem with hm | hm
      · exact absurd hm.symm hpk
      · exact ih hm

theorem alterFirst_keys (k v' : List Char) (q : QueryPairs) :
    (alterFirst k v' q).map Prod.fst = q.map Prod.fst := by
  induction q with
  | nil => rfl
  | cons p q ih =>
    rw [alterFirst]
    split_ifs with hpk
    · simp [hpk]
    · simp [ih]

theorem WFQuery_append {q1 q2 : QueryPairs} (h1 : WFQuery q1) (h2 : WFQuery q2) :
    WFQuery (q1 ++ q2) := by
  intro p hp
  rcases List.mem_append.mp hp with hp | hp
  · exact h1 p hp
  · exact h2 p hp

/-! ### C2 helper lemmas: sorting -/

theorem lexLe_total : ∀ (a b : List Char), lexLe a b = true ∨ lexLe b a = true := by
  intro a
  induction a with
  | nil => intro b; left; rfl
  | cons x xs ih =>
    intro b
    cases b with
    | nil => right; rfl
    | cons y ys =>
      rw [lexLe, lexLe]
      by_cases h1 : x.toNat < y.toNat
      · left
        rw [if_pos h1]
      · by_cases h2 : y.toNat < x.toNat
        · right
          rw [if_pos h2]
        · rw [if_neg h1, if_neg h2, if_neg h2, if_neg h1]
          exact ih ys

theorem lexLe_antisymm : ∀ (a b : List Char),
    lexLe a b = true → lexLe b a = true → a = b := by
  intro a
  induction a with
  | nil =>
    intro b _ hba
    cases b with
    | nil => rfl
    | cons y ys => exact absurd hba (by rw [lexLe]; simp)
  | cons x xs ih =>
    intro b hab hba
    cases b with
    | nil => exact absurd hab (by rw [lexLe]; simp)
    | cons y ys =>
      rw [lexLe] at hab hba
      by_cases h1 : x.toNat < y.toNat
      · rw [if_neg (by omega : ¬ y.toNat < x.toNat), if_pos h1] at hba
        exact absurd hba (by simp)
      · by_cases h2 : y.toNat < x.toNat
        · rw [if_neg h1, if_pos h2] at hab
          exact absurd hab (by simp)
        · rw [if_neg h1, if_neg h2] at hab
          rw [if_neg h2, if_neg h1] at hba
          have hxy : x = y := char_eq_of_toNat_eq (by omega)
          rw [hxy, ih ys hab hba]

theorem lexLe_trans : ∀ (a b c : List Char),
    lexLe a b = true → lexLe b c = true → lexLe a c = true := by
  intro a
  induction a with
  | nil => intro b c _ _; rfl
  | cons x xs ih =>
    intro b c hab hbc
    cases b with
    | nil => exact absurd hab (by rw [lexLe]; simp)
    | cons y ys =>
      cases c with
      | nil => exact absurd hbc (by rw [lexLe]; simp)
      | cons z zs =>
        rw [lexLe] at hab hbc ⊢
        by_cases h1 : x.toNat < y.toNat <;> by_cases h2 : y.toNat < z.toNat
        · rw [if_pos (by omega)]
        · rw [if_neg h2] at hbc
          by_cases h3 : z.toNat < y.toNat
          · rw [if_pos h3] at hbc
            exact absurd hbc (by simp)
          · rw [if_pos (by omega)]
        · rw [if_neg h1] at hab
          by_cases h3 : y.toNat < x.toNat
          · rw [if_pos h3] at hab
            exact absurd hab (by simp)
          · rw [if_pos (by omega)]
        · rw [if_neg h1] at hab
          rw [if_neg h2] at hbc
          by_cases h3 : y.toNat < x.toNat
          · rw [if_pos h3] at hab
            exact absurd hab (by simp)
          · by_cases h4 : z.toNat < y.toNat
            · rw [if_pos h4] at hbc
              exact absurd hbc (by simp)
            · rw [if_neg h3] at hab
              rw [if_neg h4] at hbc
              rw [if_neg (by omega : ¬ x.toNat < z.toNat),
                if_neg (by omega : ¬ z.toNat < x.toNat)]
              exact ih ys zs hab hbc

theorem insertSorted_perm (x : List Char) : ∀ (l : List (List Char)),
    List.Perm (insertSorted x l) (x :: l) := by
  intro l
  induction l with
  | nil => exact List.Perm.refl _
  | cons y ys ih =>
    rw [insertSorted]
    split_ifs with h
    · exact List.Perm.refl _
    · exact (ih.cons y).trans (List.Perm.swap x y ys)

theorem sortStrings_perm : ∀ (l : List (List Char)),
    List.Perm (sortStrings l) l := by
  intro l
  induction l with
  | nil => exact List.Perm.refl _
  | cons x xs ih =>
    have hstep : sortStrings (x :: xs) = insertSorted x (sortStrings xs) := rfl
    rw [hstep]
    exact (insertSorted_perm x (sortStrings xs)).trans (ih.cons x)

theorem mem_sortStrings {a : List Char} {l : List (List Char)} :
    a ∈ sortStrings l ↔ a ∈ l := (sortStrings_perm l).mem_iff

theorem sortStrings_nodup {l : List (List Char)} (h : l.Nodup) :
    (sortStrings l).Nodup := (sortStrings_perm l).nodup_iff.mpr h

theorem insertSorted_sorted (x : List Char) : ∀ (l : List (List Char)),
    List.Pairwise (fun a b => lexLe a b = true) l →
    List.Pairwise (fun a b => lexLe a b = true) (insertSorted x l) := by
  intro l
  induction l with
  | nil => intro _; exact List.pairwise_singleton _ x
  | cons y ys ih =>
    intro hl
    rw [insertSorted]
    split_ifs with h
    · refine List.pairwise_cons.mpr ⟨?_, hl⟩
      intro b hb
      rcases List.mem_cons.mp hb with hb | hb
      · exact hb ▸ h
      · exact lexLe_trans x y b h (List.rel_of_pairwise_cons hl hb)
    · refine List.pairwise_cons.mpr ⟨?_, ih (List.pairwise_cons.mp hl).2⟩
      intro b hb
      have hb2 : b ∈ x :: ys := (insertSorted_perm x ys).mem_iff.mp hb
      rcases List.mem_cons.mp hb2 with hb2 | hb2
      · rw [hb2]
        rcases lexLe_total x y with ht | ht
        · exact absurd ht h
        · exact ht
      · exact List.rel_of_pairwise_cons hl hb2

theorem sortStrings_sorted : ∀ (l : List (List Char)),
    List.Pairwise (fun a b => lexLe a b = true) (sortStrings l) := by
  intro l
  induction l with
  | nil => exact List.Pairwise.nil
  | cons x xs ih => exact insertSorted_sorted x (sortStrings xs) ih

theorem sorted_nodup_ext : ∀ (l1 l2 : List (List Char)),
    List.Pairwise (fun a b => lexLe a b = true) l1 →
    List.Pairwise (fun a b => lexLe a b = true) l2 →
    l1.Nodup → l2.Nodup → (∀ a, a ∈ l1 ↔ a ∈ l2) → l1 = l2 := by
  intro l1
  induction l1 with
  | nil =>
    intro l2 _ _ _ _ hmem
    cases l2 with
    | nil => rfl
    | cons y ys => exact absurd ((hmem y).mpr (List.mem_cons_self y ys)) (List.not_mem_nil y)
  | cons x xs ih =>
    intro l2 hs1 hs2 hn1 hn2 hmem
    cases l2 with
    | nil => exact absurd ((hmem x).mp (List.mem_cons_self x xs)) (List.not_mem_nil x)
    | cons y ys =>
      have hxy : x = y := by
        rcases List.mem_cons.mp ((hmem x).mp (List.mem_cons_self x xs)) with h | hxys
        · exact h
        · rcases List.mem_cons.mp ((hmem y).mpr (List.mem_cons_self y ys)) with h | hyxs
          · exact h.symm
          · exact lexLe_antisymm x y (List.rel_of_pairwise_cons hs1 hyxs)
              (List.rel_of_pairwise_cons hs2 hxys)
      subst hxy
      have htail : ∀ a, a ∈ xs ↔ a ∈ ys := by
        intro a
        constructor
        · intro ha
          rcases List.mem_cons.mp ((hmem a).mp (List.mem_cons_of_mem x ha)) with h | h
          · exact absurd (h ▸ ha) (List.nodup_cons.mp hn1).1
          · exact h
        · intro ha
          rcases List.mem_cons.mp ((hmem a).mpr (List.mem_cons_of_mem x ha)) with h | h
          · exact absurd (h ▸ ha) (List.nodup_cons.mp hn2).1
          · exact h
      rw [ih ys (List.pairwise_cons.mp hs1).2 (List.pairwise_cons.mp hs2).2
        (List.nodup_cons.mp hn1).2 (List.nodup_cons.mp hn2).2 htail]

theorem mem_queryKeys {k : List Char} {q : QueryPairs} :
    k ∈ queryKeys q ↔ k ∈ q.map Prod.fst := by
  rw [queryKeys, mem_sortStrings, List.mem_dedup]

theorem queryKeys_nodup (q : QueryPairs) : (queryKeys q).Nodup :=
  sortStrings_nodup (List.nodup_dedup _)

theorem queryKeys_sorted (q : QueryPairs) :
    List.Pairwise (fun a b => lexLe a b = true) (queryKeys q) :=
  sortStrings_sorted _

theorem keys_iff_valuesOf {k : List Char} {q : QueryPairs} :
    k ∈ q.map Prod.fst ↔ valuesOf k q ≠ [] := by
  constructor
  · intro h he
    exact valuesOf_eq_nil_iff.mp he h
  · intro h
    by_contra hk
    exact h (valuesOf_eq_nil_iff.mpr hk)

theorem queryKeys_congr {a b : QueryPairs} (h : ∀ j, valuesOf j a = valuesOf j b) :
    queryKeys a = queryKeys b := by
  refine sorted_nodup_ext _ _ (queryKeys_sorted a) (queryKeys_sorted b)
    (queryKeys_nodup a) (queryKeys_nodup b) ?_
  intro j
  rw [mem_queryKeys, mem_queryKeys, keys_iff_valuesOf, keys_iff_valuesOf, h j]

/-! ### C2 helper lemmas: canonical encoding and parse round-trip -/

theorem valuesOf_map_pair (j k : List Char) (vs : List (List Char)) :
    valuesOf j (vs.map (fun v => (k, v))) = if k = j then vs else [] := by
  induction vs with
  | nil => simp [valuesOf]
  | cons v vs ih =>
    by_cases h : k = j
    · rw [List.map_cons, valuesOf_cons, if_pos h, ih, if_pos h]
      rw [if_pos h]
    · rw [List.map_cons, valuesOf_cons, if_neg h, ih, if_neg h]
      rw [if_neg h]

theorem valuesOf_blocks (j : List Char) (vs : List Char → List (List Char)) :
    ∀ (ks : List (List Char)), ks.Nodup →
      valuesOf j ((ks.map (fun k => (vs k).map (fun v => (k, v)))).flatten) =
        if j ∈ ks then vs j else [] := by
  intro ks
  induction ks with
  | nil => intro _; simp [valuesOf]
  | cons k ks ih =>
    intro hnd
    rw [List.map_cons, List.flatten_cons, valuesOf_append, valuesOf_map_pair,
      ih (List.nodup_cons.mp hnd).2]
    by_cases h1 : k = j
    · subst h1
      rw [if_pos rfl, if_neg (List.nodup_cons.mp hnd).1, List.append_nil,
        if_pos (List.mem_cons_self k ks)]
    · rw [if_neg h1, List.nil_append]
      by_cases h2 : j ∈ ks
      · rw [if_pos h2, if_pos (List.mem_cons_of_mem k h2)]
      · rw [if_neg h2, if_neg (fun hm => by
          rcases List.mem_cons.mp hm with hm | hm
          · exact h1 hm.symm
          · exact h2 hm)]

theorem valuesOf_canon (j : List Char) (q : QueryPairs) :
    valuesOf j (canonQuery q) = valuesOf j q := by
  rw [canonQuery, valuesOf_blocks j (fun k => valuesOf k q) (queryKeys q) (queryKeys_nodup q)]
  by_cases h : j ∈ queryKeys q
  · rw [if_pos h]
  · rw [if_neg h]
    exact (valuesOf_eq_nil_iff.mpr (fun hm => h (mem_queryKeys.mpr hm))).symm

theorem mem_canonQuery {p : List Char × List Char} {q : QueryPairs} :
    p ∈ canonQuery q ↔ p ∈ q := by
  rcases p with ⟨k, v⟩
  rw [← mem_valuesOf, valuesOf_canon, mem_valuesOf]

theorem canonQuery_wf {q : QueryPairs} (h : WFQuery q) : WFQuery (canonQuery q) :=
  fun p hp => h p (mem_canonQuery.mp hp)

theorem canonQuery_congr {a b : QueryPairs} (h : ∀ j, valuesOf j a = valuesOf j b) :
    canonQuery a = canonQuery b := by
  rw [canonQuery, canonQuery, queryKeys_congr h]
  congr 1
  exact List.map_congr_left (fun k _ => by rw [h k])

theorem encodeQuery_eq_rows (q : QueryPairs) :
    encodeQuery q = joinWith '&' ((canonQuery q).map rowPiece) := by
  rw [encodeQuery, canonQuery, List.map_flatten, List.map_map]
  congr 2
  refine List.map_congr_left (fun k _ => ?_)
  simp only [Function.comp_apply]
  rw [List.map_map]
  rfl

theorem encodeQuery_congr {a b : QueryPairs} (h : ∀ j, valuesOf j a = valuesOf j b) :
    encodeQuery a = encodeQuery b := by
  rw [encodeQuery_eq_rows, encodeQuery_eq_rows, canonQuery_congr h]

theorem flatten_singleton {α : Type} : ∀ (l : List α), (l.map (fun a => [a])).flatten = l := by
  intro l
  induction l with
  | nil => rfl
  | cons a l ih => rw [List.map_cons, List.flatten_cons, ih, List.singleton_append]

theorem rowPiece_ne_nil (p : List Char × List Char) : rowPiece p ≠ [] := by
  rw [rowPiece]
  intro h
  rcases List.append_eq_nil.mp h with ⟨-, h2⟩
  exact List.cons_ne_nil _ _ h2

theorem mem_rowPiece_toNat {c : Char} {p : List Char × List Char} (hc : c ∈ rowPiece p) :
    c.toNat ≠ 38 ∧ c.toNat ≠ 59 ∧ c.toNat ≠ 63 := by
  rw [rowPiece] at hc
  rcases List.mem_append.mp hc with h | h
  · have ht := queryEscape_toNat h
    exact ⟨ht.2.1, ht.2.2.2.2, ht.2.2.2.1⟩
  · rcases List.mem_cons.mp h with h | h
    · rw [h]
      exact ⟨by decide, by decide, by decide⟩
    · have ht := queryEscape_toNat h
      exact ⟨ht.2.1, ht.2.2.2.2, ht.2.2.2.1⟩

theorem parseQueryComp_row (p : List Char × List Char) (hk : AllBytes p.1)
    (hv : AllBytes p.2) : parseQueryComp (rowPiece p) = [p] := by
  have hne : rowPiece p ≠ [] := rowPiece_ne_nil p
  have hcut : cutAt '=' (rowPiece p) = (queryEscape p.1, queryEscape p.2) := by
    rw [rowPiece]
    exact cutAt_append_sep '=' _ _ (fun hm => (queryEscape_toNat hm).2.2.1 (by decide))
  rw [parseQueryComp]
  rw [if_neg (fun hh : (rowPiece p).isEmpty = true => hne (List.isEmpty_iff.mp hh))]
  rw [if_neg (fun hh : (rowPiece p).contains ';' = true => by
    have hm : ';' ∈ rowPiece p := by
      simpa using hh
    exact (mem_rowPiece_toNat hm).2.1 (by decide))]
  rw [hcut]
  dsimp only
  rw [queryUnescape_queryEscape p.1 hk, queryUnescape_queryEscape p.2 hv]

theorem parse_rows : ∀ (rows : QueryPairs), WFQuery rows →
    parseQuery (joinWith '&' (rows.map rowPiece)) = rows := by
  intro rows hwf
  cases rows with
  | nil => rfl
  | cons p rest =>
    rw [parseQuery]
    rw [splitOnChar_joinWith '&' ((p :: rest).map rowPiece) (by simp)
      (fun pc hpc hcc => by
        rcases List.mem_map.mp hpc with ⟨r, -, hr⟩
        exact (mem_rowPiece_toNat (hr ▸ hcc)).1 (by decide))]
    rw [List.map_map]
    have hcong : List.map (parseQueryComp ∘ rowPiece) (p :: rest) =
        List.map (fun a => [a]) (p :: rest) :=
      List.map_congr_left (fun r hr => parseQueryComp_row r (hwf r hr).1 (hwf r hr).2)
    rw [hcong, flatten_singleton]

theorem parse_encode {q : QueryPairs} (h : WFQuery q) :
    parseQuery (encodeQuery q) = canonQuery q := by
  rw [encodeQuery_eq_rows, parse_rows (canonQuery q) (canonQuery_wf h)]

theorem encodeQuery_no_qmark (q : QueryPairs) : '?' ∉ encodeQuery q := by
  rw [encodeQuery_eq_rows]
  intro hm
  rcases mem_joinWith '&' _ '?' hm with h | ⟨pc, hpc, hcc⟩
  · exact absurd h (by decide)
  · rcases List.mem_map.mp hpc with ⟨r, -, hr⟩
    exact (mem_rowPiece_toNat (hr ▸ hcc)).2.2 (by decide)

theorem encodeQuery_ne_nil {q : QueryPairs} (h : q.map Prod.fst ≠ []) :
    encodeQuery q ≠ [] := by
  rw [encodeQuery_eq_rows]
  have hcq : canonQuery q ≠ [] := by
    rcases hq : q.map Prod.fst with _ | ⟨k, ks⟩
    · exact absurd hq h
    · have hkm : k ∈ q.map Prod.fst := by
        rw [hq]
        exact List.mem_cons_self _ _
      have hval : valuesOf k q ≠ [] := keys_iff_valuesOf.mp hkm
      rcases hvv : valuesOf k q with _ | ⟨v, vs⟩
      · exact absurd hvv hval
      · intro hcn
        have hmem : (k, v) ∈ canonQuery q := mem_canonQuery.mpr
          (mem_valuesOf.mp (by rw [hvv]; exact List.mem_cons_self _ _))
        rw [hcn] at hmem
        exact List.not_mem_nil _ hmem
  rcases hr : canonQuery q with _ | ⟨p, rest⟩
  · exact absurd hr hcq
  · rw [List.map_cons]
    cases rest with
    | nil =>
      rw [List.map_nil]
      have hjw : joinWith '&' [rowPiece p] = rowPiece p := rfl
      rw [hjw]
      exact rowPiece_ne_nil p
    | cons p2 r2 =>
      have hjw : joinWith '&' (rowPiece p :: (p2 :: r2).map rowPiece) =
          rowPiece p ++ '&' :: joinWith '&' ((p2 :: r2).map rowPiece) := by
        rw [joinWith]
        simp
      rw [hjw]
      intro he
      rcases List.append_eq_nil.mp he with ⟨-, h2⟩
      exact List.cons_ne_nil _ _ h2

theorem parseQueryComp_wf {comp : List Char} (h : AllBytes comp) :
    WFQuery (parseQueryComp comp) := by
  intro p hp
  rw [parseQueryComp] at hp
  split_ifs at hp with h1 h2
  · exact absurd hp (List.not_mem_nil p)
  · exact absurd hp (List.not_mem_nil p)
  · rcases hc : cutAt '=' comp with ⟨k0, v0⟩
    rw [hc] at hp
    dsimp only at hp
    have hk0 : AllBytes k0 := fun c hcc =>
      h c ((cutAt_mem '=' comp c).1 (by rw [hc]; exact hcc))
    have hv0 : AllBytes v0 := fun c hcc =>
      h c ((cutAt_mem '=' comp c).2 (by rw [hc]; exact hcc))
    rcases hk : queryUnescape k0 with _ | k
    · rw [hk] at hp
      exact absurd hp (List.not_mem_nil p)
    · rcases hv : queryUnescape v0 with _ | v
      · rw [hk, hv] at hp
        exact absurd hp (List.not_mem_nil p)
      · rw [hk, hv] at hp
        rcases List.mem_cons.mp hp with hp | hp
        · rw [hp]
          exact ⟨queryUnescape_bytes k0.length k0 le_rfl hk0 k hk,
            queryUnescape_bytes v0.length v0 le_rfl hv0 v hv⟩
        · exact absurd hp (List.not_mem_nil p)

theorem parseQuery_wf {s : List Char} (h : AllBytes s) : WFQuery (parseQuery s) := by
  intro p hp
  rw [parseQuery] at hp
  rcases List.mem_flatten.mp hp with ⟨l, hl, hpl⟩
  rcases List.mem_map.mp hl with ⟨comp, hcomp, hcl⟩
  have hbytes : AllBytes comp := fun c hc =>
    h c (mem_of_mem_splitOnChar '&' s comp hcomp c hc)
  exact parseQueryComp_wf hbytes p (hcl ▸ hpl)

theorem WFQuery_delKey {k : List Char} {q : QueryPairs} (h : WFQuery q) :
    WFQuery (delKey k q) := fun p hp => h p (List.mem_of_mem_filter hp)

theorem WFQuery_singleton {k v : List Char} (hk : AllBytes k) (hv : AllBytes v) :
    WFQuery [(k, v)] := by
  intro p hp
  rcases List.mem_cons.mp hp with hp | hp
  · rw [hp]
    exact ⟨hk, hv⟩
  · exact absurd hp (List.not_mem_nil p)

theorem WFQuery_alterFirst {k v' : List Char} (hv : AllBytes v') :
    ∀ (q : QueryPairs), WFQuery q → WFQuery (alterFirst k v' q) := by
  intro q
  induction q with
  | nil => intro h; exact h
  | cons p q ih =>
    intro h
    rw [alterFirst]
    split_ifs with hpk
    · intro r hr
      rcases List.mem_cons.mp hr with hr | hr
      · rw [hr]
        refine ⟨?_, hv⟩
        have h1 := (h p (List.mem_cons_self p q)).1
        rw [hpk] at h1
        exact h1
      · exact h r (List.mem_cons_of_mem p hr)
    · intro r hr
      rcases List.mem_cons.mp hr with hr | hr
      · rw [hr]
        exact h p (List.mem_cons_self p q)
      · exact ih (fun r2 hr2 => h r2 (List.mem_cons_of_mem p hr2)) r hr

/-! ### C2 helper lemmas: evaluating the presign/verify pipeline -/

theorem PresignObject_eq (mac : List Char → List Char → List Nat) (now : Nat)
    (uri key : List Char) (exp : Int) (h : ¬ exp > maxExpiration) :
    PresignObject mac now uri key exp =
      some (uriString (splitUri uri).1 (encodeQuery (presignQ2 mac now exp uri key))) := by
  rcases hsp : splitUri uri with ⟨base, rawQ⟩
  rw [PresignObject, if_neg h, hsp]
  dsimp only
  rw [presignQ2, presignQ1, presignStr, presignQ1, hsp]

theorem verify_unfold (mac : List Char → List Char → List Nat) (now' : Nat)
    (base : List Char) (Q : QueryPairs) (key : List Char)
    (hbase : '?' ∉ base) (hwf : WFQuery Q) (hne : encodeQuery Q ≠ []) :
    VerifySignedObject mac now' (uriString base (encodeQuery Q)) key =
      (verifySignature mac base (canonQuery Q) key &&
        verifyExpiration now' (canonQuery Q)) := by
  have hsp : splitUri (uriString base (encodeQuery Q)) = (base, encodeQuery Q) := by
    rw [uriString,
      if_neg (fun hh : (encodeQuery Q).isEmpty = true => hne (List.isEmpty_iff.mp hh)),
      splitUri]
    exact cutAt_append_sep '?' base _ hbase
  rw [VerifySignedObject, hsp]
  dsimp only
  rw [parse_encode hwf]

theorem getFirst_canon (j : List Char) (Q : QueryPairs) :
    getFirst j (canonQuery Q) = (valuesOf j Q).headD [] := by
  rw [getFirst, valuesOf_canon]

theorem verifySignature_eval (mac : List Char → List Char → List Nat)
    (base key : List Char) (Q : QueryPairs) (sig : List Nat)
    (hsig : ∀ b ∈ sig, b < 256)
    (hget : getFirst signatureQueryName Q = queryEscape (b64encode sig)) :
    verifySignature mac base Q key =
      decide (sig = mac key (uriString base (encodeQuery (delKey signatureQueryName Q)))) := by
  rw [verifySignature, hget, queryUnescape_queryEscape _ (b64encode_bytes sig)]
  dsimp only
  rw [b64decode_b64encode sig hsig]

theorem verifyExpiration_eval (now' : Nat) (Q : QueryPairs) (t : Nat) (d : Int)
    (ht : getFirst timeQueryName Q = natToChars t)
    (hd : getFirst expirationQueryName Q = intToChars d) :
    verifyExpiration now' Q = decide ((t : Int) + d > (now' : Int)) := by
  rw [verifyExpiration, ht, parseNatDigits_natToChars, hd, parseIntChars_intToChars]

theorem qnames_ne1 : timeQueryName ≠ expirationQueryName := by decide

theorem qnames_ne2 : timeQueryName ≠ signatureQueryName := by decide

theorem qnames_ne3 : expirationQueryName ≠ signatureQueryName := by decide

theorem valuesOf_pair (j k v : List Char) :
    valuesOf j [(k, v)] = if k = j then [v] else [] := by
  by_cases h : k = j
  · rw [valuesOf_cons, if_pos h, if_pos h, valuesOf_nil]
  · rw [valuesOf_cons, if_neg h, if_neg h, valuesOf_nil]

theorem valuesOf_presignQ1 (j : List Char) (now : Nat) (exp : Int) (uri : List Char) :
    valuesOf j (presignQ1 now exp uri) =
      valuesOf j (parseQuery (splitUri uri).2) ++
        (if timeQueryName = j then [natToChars now] else []) ++
        (if expirationQueryName = j then [intToChars exp] else []) := by
  rw [presignQ1, valuesOf_append, valuesOf_append, valuesOf_pair, valuesOf_pair]

theorem valuesOf_presignQ2 (j : List Char) (mac : List Char → List Char → List Nat)
    (now : Nat) (exp : Int) (uri key : List Char) :
    valuesOf j (presignQ2 mac now exp uri key) =
      valuesOf j (presignQ1 now exp uri) ++
        (if signatureQueryName = j then
          [queryEscape (b64encode (mac key (presignStr now exp uri)))] else []) := by
  rw [presignQ2, valuesOf_append, valuesOf_pair]

theorem splitUri_snd_bytes {uri : List Char} (h : AllBytes uri) :
    AllBytes (splitUri uri).2 := by
  intro c hc
  exact h c ((cutAt_mem '?' uri c).2 hc)

theorem WF_presignQ1 {uri : List Char} (h : AllBytes uri) (now : Nat) (exp : Int) :
    WFQuery (presignQ1 now exp uri) := by
  rw [presignQ1]
  exact WFQuery_append
    (WFQuery_append (parseQuery_wf (splitUri_snd_bytes h))
      (WFQuery_singleton (by unfold AllBytes; decide) (natToChars_bytes now)))
    (WFQuery_singleton (by unfold AllBytes; decide) (intToChars_bytes exp))

theorem WF_presignQ2 {uri : List Char} (h : AllBytes uri)
    (mac : List Char → List Char → List Nat) (now : Nat) (exp : Int) (key : List Char) :
    WFQuery (presignQ2 mac now exp uri key) := by
  rw [presignQ2]
  exact WFQuery_append (WF_presignQ1 h now exp)
    (WFQuery_singleton (by unfold AllBytes; decide) (fun c hc => (queryEscape_toNat hc).1))

theorem uriString_inj_of_ne_nil {b e1 e2 : List Char} (h1 : e1 ≠ [])
    (h : uriString b e1 = uriString b e2) : e1 = e2 := by
  rw [uriString, uriString,
    if_neg (fun hh : e1.isEmpty = true => h1 (List.isEmpty_iff.mp hh))] at h
  by_cases h2 : e2.isEmpty = true
  · rw [if_pos h2] at h
    exfalso
    have hlen := congrArg List.length h
    simp at hlen
  · rw [if_neg h2] at h
    have h3 := List.append_cancel_left h
    injection h3

/-- C2: the presign/verify round-trip of `PresignObject`, `verifySignature`
and `verifyExpiration`, over the `net/url` model, with the HMAC as a
parameter assumed byte-valued and injective per key.  Corrected statement:
it additionally requires a byte-valued URL whose query does not already use
the three reserved parameter names, a strictly positive expiration, and, for
the signature parameter, that the tampered value not decode to the original
signature bytes.  Under those hypotheses: verification succeeds at signing
time; it fails once the clock reaches the timestamp plus the expiration; and
it fails when any query parameter of the signed URL is altered. -/
theorem C2_presign_verify (mac : List Char → List Char → List Nat)
    (hmb : ∀ (kk ss : List Char), ∀ b ∈ mac kk ss, b < 256)
    (hmi : ∀ (kk s1 s2 : List Char), mac kk s1 = mac kk s2 → s1 = s2)
    (now : Nat) (uri key : List Char) (exp : Int)
    (huri : AllBytes uri) (h0 : 0 < exp) (hceil : exp ≤ maxExpiration)
    (hT : timeQueryName ∉ (parseQuery (splitUri uri).2).map Prod.fst)
    (hE : expirationQueryName ∉ (parseQuery (splitUri uri).2).map Prod.fst)
    (hS : signatureQueryName ∉ (parseQuery (splitUri uri).2).map Prod.fst)
    (out : List Char) (hout : PresignObject mac now uri key exp = some out) :
    VerifySignedObject mac now out key = true ∧
    (∀ now2 : Nat, (now : Int) + exp ≤ (now2 : Int) →
      VerifySignedObject mac now2 out key = false) ∧
    (∀ k v', k ∈ (parseQuery (splitUri out).2).map Prod.fst →
      k ≠ signatureQueryName → AllBytes v' →
      v' ≠ getFirst k (parseQuery (splitUri out).2) →
      VerifySignedObject mac now
        (uriString (splitUri out).1
          (encodeQuery (alterFirst k v' (parseQuery (splitUri out).2)))) key = false) ∧
    (∀ v', AllBytes v' →
      (queryUnescape v').bind b64decode ≠
        (queryUnescape (getFirst signatureQueryName
          (parseQuery (splitUri out).2))).bind b64decode →
      VerifySignedObject mac now
        (uriString (splitUri out).1
          (encodeQuery (alterFirst signatureQueryName v'
            (parseQuery (splitUri out).2)))) key = false) := by
  have hnc : ¬ exp > maxExpiration := not_lt.mpr hceil
  rw [PresignObject_eq mac now uri key exp hnc] at hout
  injection hout with hinj
  have hout2 : out =
      uriString (splitUri uri).1 (encodeQuery (presignQ2 mac now exp uri key)) := hinj.symm
  have hwf2 : WFQuery (presignQ2 mac now exp uri key) := WF_presignQ2 huri mac now exp key
  have hwf1 : WFQuery (presignQ1 now exp uri) := WF_presignQ1 huri now exp
  have hbase : '?' ∉ (splitUri uri).1 := cutAt_fst_no_sep '?' uri
  have hv0T : valuesOf timeQueryName (parseQuery (splitUri uri).2) = [] :=
    valuesOf_eq_nil_iff.mpr hT
  have hv0E : valuesOf expirationQueryName (parseQuery (splitUri uri).2) = [] :=
    valuesOf_eq_nil_iff.mpr hE
  have hv0S : valuesOf signatureQueryName (parseQuery (splitUri uri).2) = [] :=
    valuesOf_eq_nil_iff.mpr hS
  have hvT1 : valuesOf timeQueryName (presignQ1 now exp uri) = [natToChars now] := by
    rw [valuesOf_presignQ1, hv0T, if_pos rfl, if_neg (fun hh => qnames_ne1 hh.symm)]
    simp
  have hvE1 : valuesOf expirationQueryName (presignQ1 now exp uri) = [intToChars exp] := by
    rw [valuesOf_presignQ1, hv0E, if_neg qnames_ne1, if_pos rfl]
    simp
  have hvS1 : valuesOf signatureQueryName (presignQ1 now exp uri) = [] := by
    rw [valuesOf_presignQ1, hv0S, if_neg qnames_ne2, if_neg qnames_ne3]
    simp
  have hvj : ∀ j, j ≠ signatureQueryName →
      valuesOf j (presignQ2 mac now exp uri key) = valuesOf j (presignQ1 now exp uri) :=
    fun j hj => by
      rw [valuesOf_presignQ2, if_neg (fun hh => hj hh.symm), List.append_nil]
  have hvT : valuesOf timeQueryName (presignQ2 mac now exp uri key) = [natToChars now] := by
    rw [hvj timeQueryName qnames_ne2, hvT1]
  have hvE : valuesOf expirationQueryName (presignQ2 mac now exp uri key) =
      [intToChars exp] := by
    rw [hvj expirationQueryName qnames_ne3, hvE1]
  have hvS : valuesOf signatureQueryName (presignQ2 mac now exp uri key) =
      [queryEscape (b64encode (mac key (presignStr now exp uri)))] := by
    rw [valuesOf_presignQ2, hvS1, if_pos rfl]
    simp
  have hne1 : encodeQuery (presignQ1 now exp uri) ≠ [] := encodeQuery_ne_nil
    (List.ne_nil_of_mem (keys_iff_valuesOf.mpr (by
      rw [hvT1]
      exact List.cons_ne_nil _ _)))
  have hne2 : encodeQuery (presignQ2 mac now exp uri key) ≠ [] := encodeQuery_ne_nil
    (List.ne_nil_of_mem (keys_iff_valuesOf.mpr (by
      rw [hvS]
      exact List.cons_ne_nil _ _)))
  have hsig : ∀ b ∈ mac key (presignStr now exp uri), b < 256 := hmb key _
  have hsp2 : splitUri out =
      ((splitUri uri).1, encodeQuery (presignQ2 mac now exp uri key)) := by
    rw [hout2, uriString,
      if_neg (fun hh : (encodeQuery (presignQ2 mac now exp uri key)).isEmpty = true =>
        hne2 (List.isEmpty_iff.mp hh)),
      splitUri]
    exact cutAt_append_sep '?' _ _ hbase
  have hpq : parseQuery (splitUri out).2 = canonQuery (presignQ2 mac now exp uri key) := by
    rw [hsp2]
    exact parse_encode hwf2
  have hb1 : (splitUri out).1 = (splitUri uri).1 := by rw [hsp2]
  have hgetS : getFirst signatureQueryName (canonQuery (presignQ2 mac now exp uri key)) =
      queryEscape (b64encode (mac key (presignStr now exp uri))) := by
    rw [getFirst_canon, hvS]
    rfl
  have hdel : encodeQuery (delKey signatureQueryName
      (canonQuery (presignQ2 mac now exp uri key))) = encodeQuery (presignQ1 now exp uri) :=
    encodeQuery_congr (fun j => by
      rw [valuesOf_delKey, valuesOf_canon]
      by_cases hj : j = signatureQueryName
      · rw [if_pos hj, hj, hvS1]
      · rw [if_neg hj, hvj j hj])
  refine ⟨?_, ?_, ?_, ?_⟩
  · rw [hout2, verify_unfold mac now _ _ key hbase hwf2 hne2,
      verifySignature_eval mac _ key _ _ hsig hgetS, hdel,
      verifyExpiration_eval now _ now exp (by rw [getFirst_canon, hvT]; rfl)
        (by rw [getFirst_canon, hvE]; rfl)]
    have h1 : decide (mac key (presignStr now exp uri) =
        mac key (uriString (splitUri uri).1 (encodeQuery (presignQ1 now exp uri)))) = true := by
      rw [decide_eq_true_eq]
      rfl
    rw [h1, Bool.true_and, decide_eq_true_eq]
    omega
  · intro now2 hle
    rw [hout2, verify_unfold mac now2 _ _ key hbase hwf2 hne2,
      verifyExpiration_eval now2 _ now exp (by rw [getFirst_canon, hvT]; rfl)
        (by rw [getFirst_canon, hvE]; rfl)]
    have h2 : decide ((now : Int) + exp > (now2 : Int)) = false := by
      rw [decide_eq_false_iff_not]
      omega
    rw [h2, Bool.and_false]
  · intro k v' hk hkS hv' hne'
    rw [hpq] at hk hne'
    rw [hpq, hb1]
    have hwfq' : WFQuery (alterFirst k v' (canonQuery (presignQ2 mac now exp uri key))) :=
      WFQuery_alterFirst hv' _ (canonQuery_wf hwf2)
    have hneq' : encodeQuery (alterFirst k v'
        (canonQuery (presignQ2 mac now exp uri key))) ≠ [] := by
      apply encodeQuery_ne_nil
      rw [alterFirst_keys]
      exact List.ne_nil_of_mem hk
    rw [verify_unfold mac now _ _ key hbase hwfq' hneq']
    have hgetS2 : getFirst signatureQueryName (canonQuery (alterFirst k v'
        (canonQuery (presignQ2 mac now exp uri key)))) =
        queryEscape (b64encode (mac key (presignStr now exp uri))) := by
      rw [getFirst_canon, valuesOf_alterFirst_other (Ne.symm hkS), valuesOf_canon, hvS]
      rfl
    rw [verifySignature_eval mac _ key _ _ hsig hgetS2]
    have hsf : decide (mac key (presignStr now exp uri) =
        mac key (uriString (splitUri uri).1 (encodeQuery (delKey signatureQueryName
          (canonQuery (alterFirst k v'
            (canonQuery (presignQ2 mac now exp uri key)))))))) = false := by
      rw [decide_eq_false_iff_not]
      intro heq
      have hstr := hmi key _ _ heq
      rw [presignStr] at hstr
      have henc : encodeQuery (presignQ1 now exp uri) =
          encodeQuery (delKey signatureQueryName (canonQuery (alterFirst k v'
            (canonQuery (presignQ2 mac now exp uri key))))) :=
        uriString_inj_of_ne_nil hne1 hstr
      have hcanon := congrArg parseQuery henc
      rw [parse_encode hwf1, parse_encode (WFQuery_delKey (canonQuery_wf hwfq'))] at hcanon
      have hvk := congrArg (valuesOf k) hcanon
      rw [valuesOf_canon, valuesOf_canon, valuesOf_delKey, if_neg hkS, valuesOf_canon,
        valuesOf_alterFirst_same k v' _ hk, valuesOf_canon] at hvk
      rw [← hvj k hkS] at hvk
      have hkQ2 : k ∈ (presignQ2 mac now exp uri key).map Prod.fst := by
        rcases List.mem_map.mp hk with ⟨p, hp, hpk⟩
        exact List.mem_map.mpr ⟨p, mem_canonQuery.mp hp, hpk⟩
      have hvne : valuesOf k (presignQ2 mac now exp uri key) ≠ [] :=
        keys_iff_valuesOf.mp hkQ2
      rcases hvv : valuesOf k (presignQ2 mac now exp uri key) with _ | ⟨v0, tl⟩
      · exact hvne hvv
      · rw [hvv] at hvk
        injection hvk with hv0 hv1
        apply hne'
        rw [getFirst_canon, hvv]
        exact hv0.symm
    rw [hsf, Bool.false_and]
  · intro v' hv' hneq
    rw [hpq] at hneq
    rw [hpq, hb1]
    have hmemS : signatureQueryName ∈
        (canonQuery (presignQ2 mac now exp uri key)).map Prod.fst := by
      apply keys_iff_valuesOf.mpr
      rw [valuesOf_canon, hvS]
      exact List.cons_ne_nil _ _
    have hwfq' : WFQuery (alterFirst signatureQueryName v'
        (canonQuery (presignQ2 mac now exp uri key))) :=
      WFQuery_alterFirst hv' _ (canonQuery_wf hwf2)
    have hneq2 : encodeQuery (alterFirst signatureQueryName v'
        (canonQuery (presignQ2 mac now exp uri key))) ≠ [] := by
      apply encodeQuery_ne_nil
      rw [alterFirst_keys]
      exact List.ne_nil_of_mem hmemS
    rw [verify_unfold mac now _ _ key hbase hwfq' hneq2]
    have hgetS2 : getFirst signatureQueryName (canonQuery (alterFirst signatureQueryName v'
        (canonQuery (presignQ2 mac now exp uri key)))) = v' := by
      rw [getFirst_canon, valuesOf_alterFirst_same _ v' _ hmemS]
      rfl
    have hdel2 : encodeQuery (delKey signatureQueryName (canonQuery (alterFirst
        signatureQueryName v' (canonQuery (presignQ2 mac now exp uri key))))) =
        encodeQuery (presignQ1 now exp uri) :=
      encodeQuery_congr (fun j => by
        rw [valuesOf_delKey, valuesOf_canon]
        by_cases hj : j = signatureQueryName
        · rw [if_pos hj, hj, hvS1]
        · rw [if_neg hj, valuesOf_alterFirst_other hj, valuesOf_canon, hvj j hj])
    have hRHS : (queryUnescape (getFirst signatureQueryName
        (canonQuery (presignQ2 mac now exp uri key)))).bind b64decode =
        some (mac key (presignStr now exp uri)) := by
      rw [hgetS, queryUnescape_queryEscape _ (b64encode_bytes _), Option.some_bind,
        b64decode_b64encode _ hsig]
    have hsf : verifySignature mac (splitUri uri).1 (canonQuery (alterFirst
        signatureQueryName v' (canonQuery (presignQ2 mac now exp uri key)))) key = false := by
      rw [verifySignature, hgetS2]
      rcases hu : queryUnescape v' with _ | w
      · rfl
      · dsimp only
        rcases hb : b64decode w with _ | sg
        · rfl
        · dsimp only
          rw [hdel2, decide_eq_false_iff_not]
          intro heq
          apply hneq
          rw [hRHS, hu, Option.some_bind, hb, heq]
          rfl
    rw [hsf, Bool.false_and]

theorem char_toNat_lt (c : Char) : c.toNat < 1114112 := by
  rcases c.valid with h | ⟨h1, h2⟩
  · simp only [Char.toNat]
    omega
  · simp only [Char.toNat]
    omega

theorem macW_step (kk l : List Char) (c : Char) :
    macW kk (c :: l) =
      c.toNat % 256 :: c.toNat / 256 % 256 :: c.toNat / 65536 :: macW kk l := by
  rw [macW, macW, List.map_cons, List.flatten_cons]
  rfl

theorem macW_bytes : ∀ (kk ss : List Char), ∀ b ∈ macW kk ss, b < 256 := by
  intro kk ss b hb
  rw [macW] at hb
  rcases List.mem_flatten.mp hb with ⟨l, hl, hbl⟩
  rcases List.mem_map.mp hl with ⟨c, hc, hcl⟩
  have hlt := char_toNat_lt c
  rw [← hcl] at hbl
  rcases List.mem_cons.mp hbl with h | h
  · subst h
    omega
  rcases List.mem_cons.mp h with h | h
  · subst h
    omega
  rcases List.mem_cons.mp h with h | h
  · subst h
    omega
  · exact absurd h (List.not_mem_nil b)

theorem macW_inj : ∀ (kk s1 s2 : List Char), macW kk s1 = macW kk s2 → s1 = s2 := by
  intro kk s1
  induction s1 with
  | nil =>
    intro s2 h
    cases s2 with
    | nil => rfl
    | cons d ds =>
      rw [macW_step] at h
      simp [macW] at h
  | cons c cs ih =>
    intro s2 h
    cases s2 with
    | nil =>
      rw [macW_step] at h
      simp [macW] at h
    | cons d ds =>
      rw [macW_step, macW_step] at h
      injection h with h1 h
      injection h with h2 h
      injection h with h3 h
      have hc := char_toNat_lt c
      have hd := char_toNat_lt d
      have hcd : c = d := char_eq_of_toNat_eq (by omega)
      rw [hcd, ih ds h]

theorem intToChars_60 : intToChars 60 = ['6', '0'] := by
  have h1 : natDigitsRev 60 = [0, 6] := by
    rw [natDigitsRev]
    norm_num
    rw [natDigitsRev]
    norm_num
    rw [natDigitsRev]
    norm_num
  have h2 : natToChars 60 = ['6', '0'] := by
    rw [natToChars, if_neg (by norm_num), h1]
    rfl
  rw [intToChars, if_neg (by norm_num)]
  exact h2

/-- Counterexamples to the unconditional claim: a URL that already carries a
signature parameter defeats verification of the fresh signature, and an
expiration of zero (within the ceiling) fails verification immediately. -/
theorem C2_counterexample :
    (PresignObject macId 0 ("s?X-Amx-Signature=foo".toList) ("k".toList) 60).map
      (fun o => VerifySignedObject macId 0 o ("k".toList)) = some false ∧
    (PresignObject macId 0 ("s?a=b".toList) ("k".toList) 0).map
      (fun o => VerifySignedObject macId 0 o ("k".toList)) = some false := by
  constructor
  · rw [PresignObject, intToChars_60]
    decide
  · decide

set_option maxRecDepth 100000 in
/-- Witness: at a concrete URL, key, clock and expiration the presigned URL
verifies. -/
theorem C2_presign_verify_witness :
    VerifySignedObject macW 0
      ("s?X-Amx-Date=0&X-Amx-Expiration=60&X-Amx-Signature=cwAAPwAAWAAALQAAQQAAbQAAeAAALQAARAAAYQAAdAAAZQAAPQAAMAAAJgAAWAAALQAAQQAAbQAAeAAALQAARQAAeAAAcAAAaQAAcgAAYQAAdAAAaQAAbwAAbgAAPQAANgAAMAAAJgAAYQAAPQAAYgAA&a=b".toList) ("k".toList) = true := by
  have h := C2_presign_verify macW macW_bytes macW_inj 0 ("s?a=b".toList) ("k".toList) 60
    (by unfold AllBytes; decide) (by decide) (by decide)
    (by decide) (by decide) (by decide)
    ("s?X-Amx-Date=0&X-Amx-Expiration=60&X-Amx-Signature=cwAAPwAAWAAALQAAQQAAbQAAeAAALQAARAAAYQAAdAAAZQAAPQAAMAAAJgAAWAAALQAAQQAAbQAAeAAALQAARQAAeAAAcAAAaQAAcgAAYQAAdAAAaQAAbwAAbgAAPQAANgAAMAAAJgAAYQAAPQAAYgAA&a=b".toList)
    (by rw [PresignObject, intToChars_60]; decide)
  exact h.1

end FilesApi
